import Mathlib

/-!
Verification of the shami-rs node: a Shamir secret-sharing MPC implementation
over the Mersenne field F_p, p = 2^61 - 1.

This file contains a shallow embedding of the Rust sources:
  src/math/mersenne61.rs  (field arithmetic on the stored u64 value, modelled as Nat)
  src/math/lagrange.rs    (Lagrange basis and interpolation; panics modelled as Option)
  src/mpc/share.rs        (ShamirShare and its local algebra)
  src/mpc/mod.rs          (sharing, reconstruction, the multiplication protocol)
  src/net/channel.rs      (TCP and loopback channels, with the byte stream made explicit)
  src/main.rs             (the session driver's multiplication fold)

Machine integers are modelled as Nat with explicit `% 2 ^ 64` at the points where a
cast or overflow occurs in the Rust code; fallible operations return Option or Except.
The `FiniteField` trait and `Polynomial` live in src/math/mod.rs which is not part of
the provided sources; the polynomial evaluator is modelled from the spec and marked so.
-/

namespace Shami

namespace Mersenne61

/-- The modulus p = 2^61 - 1 (`Mersenne61::MODULUS` in src/math/mersenne61.rs). -/
def MODULUS : ℕ := 0x1FFFFFFFFFFFFFFF

/-- Embedding of `impl From<u64> for Mersenne61`: repeated subtraction of the
modulus while the value is at least the modulus. The argument is the u64 input. -/
def fromU64 (v : ℕ) : ℕ :=
  if MODULUS ≤ v then fromU64 (v - MODULUS) else v
termination_by v
decreasing_by
  have h : 0 < MODULUS := by unfold MODULUS; norm_num
  omega

/-- Embedding of `Mersenne61::add`: add the stored values, then reduce via `From`. -/
def add (a b : ℕ) : ℕ := fromU64 (a + b)

/-- Embedding of `Mersenne61::random`: the sampled u64 `v` is reduced via `From`. -/
def random (v : ℕ) : ℕ := fromU64 v

/-- The value `most_sig_bits` in `Mersenne61::multiply` after the `|=` fold:
the 128-bit product shifted right by 61 and truncated to u64, or-ed with the
top bits of the truncated low word. -/
def multiplyHigh (a b : ℕ) : ℕ :=
  (((a * b) >>> 61) % 2 ^ 64) ||| (((a * b) % 2 ^ 64) >>> 61)

/-- The value `least_sig_bits` in `Mersenne61::multiply` after the mask:
the 128-bit product truncated to u64 and masked with the modulus. -/
def multiplyLow (a b : ℕ) : ℕ :=
  ((a * b) % 2 ^ 64) &&& MODULUS

/-- Embedding of `Mersenne61::multiply`: reduce the high and low pieces via `From`
and combine them with the modular addition. -/
def multiply (a b : ℕ) : ℕ :=
  add (fromU64 (multiplyHigh a b)) (fromU64 (multiplyLow a b))

/-- Embedding of `Mersenne61::subtract`: if b exceeds a, add the modulus before
subtracting to avoid u64 wraparound. -/
def subtract (a b : ℕ) : ℕ :=
  if b > a then fromU64 (a + MODULUS - b) else fromU64 (a - b)

/-- Embedding of `Mersenne61::negate`. -/
def negate (a : ℕ) : ℕ :=
  if a ≠ 0 then fromU64 (MODULUS - a) else 0

/-- One iteration state of the extended Euclidean loop in `Mersenne61::inverse`.
The Rust loop works on i64 values; along every execution reached from
`inverse` the remainders r, new_r stay non-negative and below the modulus, so
they are carried as Nat, while the Bezout coefficients may be negative and are
carried as Int. `assign(&mut k, &mut new_k, q)` sets k <- new_k and
new_k <- k - q * new_k, and likewise for r. The quotient q = r / new_r is
i64 division on non-negative operands, which is Nat division. -/
def egcdLoop (k newK : ℤ) (r newR : ℕ) : ℤ × ℕ :=
  if h : newR = 0 then (k, r)
  else egcdLoop newK (k - ((r / newR : ℕ) : ℤ) * newK) newR (r % newR)
termination_by newR
decreasing_by exact Nat.mod_lt _ (Nat.pos_of_ne_zero h)

/-- Embedding of `Mersenne61::inverse`: `None` models `Err(FieldError::ZeroInverse)`.
After the loop, a negative Bezout coefficient is shifted by the modulus once and
the result is cast `as u64` (two's complement, modelled by `emod 2^64`) and fed
through `From`. -/
def inverse (a : ℕ) : Option ℕ :=
  if a = 0 then none
  else
    let kr := egcdLoop 0 1 MODULUS a
    let k2 : ℤ := if kr.1 < 0 then kr.1 + (MODULUS : ℤ) else kr.1
    some (fromU64 (Int.toNat (k2 % (2 : ℤ) ^ 64)))

/-- Little-endian byte decoding of a u64, as done by bincode for each integer field. -/
def u64FromLeBytes (b : List ℕ) : ℕ :=
  b.foldr (fun byte acc => acc * 256 + byte) 0

/-- Modelled from the spec: the wire decoding of a `ShamirShare<Mersenne61>` (spec s6);
the serde/bincode implementations are derived and not under src/. bincode encodes the
struct as two 8-byte little-endian words in field declaration order (degree, then
value). The derived `Deserialize` reads the raw u64 for the field value and applies
no modular reduction. Returns (degree, value). -/
def deserializeShamirShare (bytes : List ℕ) : Option (ℕ × ℕ) :=
  if 16 ≤ bytes.length then
    some (u64FromLeBytes (bytes.take 8), u64FromLeBytes ((bytes.drop 8).take 8))
  else none

end Mersenne61

/-- The mathematical field the implementation computes in: the integers modulo
the Mersenne prime. Used only to state and prove properties of the embedding. -/
abbrev F : Type := ZMod Mersenne61.MODULUS

/-- The j-th evaluation node (party j evaluates at j + 1), as a field element. -/
def nodeF (j : ℕ) : F := ((j + 1 : ℕ) : F)

/-- The node sequence 1..k as stored values: the field images `T::from(idx)` for
idx in 1..=k, exactly as built in `reconstruct_secret` and
`run_multiply_protocol`. -/
def nodesList (k : ℕ) : List ℕ :=
  (List.range k).map (fun i => Mersenne61.fromU64 (i + 1))

/-- Embedding of `ShamirShare<T>` from src/mpc/share.rs with T = Mersenne61. -/
structure ShamirShare where
  degree : ℕ
  value : ℕ
deriving DecidableEq, Repr, Inhabited

namespace ShamirShare

/-- Embedding of `ShamirShare::new`. -/
def new (value : ℕ) (degree : ℕ) : ShamirShare := { value := value, degree := degree }

/-- Embedding of `ShamirShare::multiply`: component multiply, degrees add. -/
def multiply (s o : ShamirShare) : ShamirShare :=
  { value := Mersenne61.multiply s.value o.value, degree := s.degree + o.degree }

/-- Embedding of `ShamirShare::multiply_const`: degree preserved. -/
def multiply_const (s : ShamirShare) (c : ℕ) : ShamirShare :=
  { value := Mersenne61.multiply s.value c, degree := s.degree }

/-- Embedding of `ShamirShare::add_const`: degree preserved. -/
def add_const (s : ShamirShare) (c : ℕ) : ShamirShare :=
  { value := Mersenne61.add s.value c, degree := s.degree }

/-- Embedding of `ShamirShare::subtract_const`: the code computes
`self.value.subtract(&other.negate())`, degree preserved. -/
def subtract_const (s : ShamirShare) (c : ℕ) : ShamirShare :=
  { value := Mersenne61.subtract s.value (Mersenne61.negate c), degree := s.degree }

/-- Embedding of `ShamirShare::add`: component add, degree is the max. -/
def add (s o : ShamirShare) : ShamirShare :=
  { value := Mersenne61.add s.value o.value, degree := max s.degree o.degree }

/-- Embedding of `ShamirShare::negate`: degree preserved. -/
def negate (s : ShamirShare) : ShamirShare :=
  { value := Mersenne61.negate s.value, degree := s.degree }

/-- Embedding of `ShamirShare::subtract`: `self.add(&other.negate())`. -/
def subtract (s o : ShamirShare) : ShamirShare :=
  s.add o.negate

end ShamirShare

/-- Modelled from the spec: `Polynomial::evaluate` (src/math/mod.rs is not under src/).
The spec (s4.2) requires Horner or an equivalent exact evaluation of the coefficient
sequence c0, c1, ..., cd; coefficient i multiplies x^i. -/
def polyEval (coeffs : List ℕ) (x : ℕ) : ℕ :=
  coeffs.foldr (fun c acc => Mersenne61.add (Mersenne61.multiply acc x) c) 0

/-- The mathematical polynomial denoted by a coefficient list (coefficient i is
the coefficient of X^i). Proof apparatus, not part of the embedding. -/
noncomputable def listToPoly (cs : List ℕ) : Polynomial F :=
  cs.foldr (fun c q => Polynomial.C ((c : ℕ) : F) + Polynomial.X * q) 0

/-- Sequencing of fallible loop iterations: a Rust loop that pushes one result per
iteration and can only abort by panicking is modelled as a list of Option results,
combined into an Option of the list. -/
def sequenceOption {α : Type} : List (Option α) → Option (List α)
  | [] => some []
  | o :: rest =>
    match o with
    | none => none
    | some a => (sequenceOption rest).map (fun l => a :: l)

/-- Embedding of the inner loop of `compute_lagrange_basis` (src/math/lagrange.rs):
running over the enumerated nodes with index m, skipping m = j, multiplying the
accumulator by (x - x_m) * (x_j - x_m)^[-1]. The unwrap of the inverse is modelled
by Option: `none` is the panic on a zero denominator. -/
def basisProd (x xj j : ℕ) : ℕ → ℕ → List ℕ → Option ℕ
  | acc, _, [] => some acc
  | acc, m, xm :: rest =>
    if m = j then basisProd x xj j acc (m + 1) rest
    else
      match Mersenne61.inverse (Mersenne61.subtract xj xm) with
      | none => none
      | some inv =>
        basisProd x xj j
          (Mersenne61.multiply acc (Mersenne61.multiply (Mersenne61.subtract x xm) inv))
          (m + 1) rest

/-- Embedding of `compute_lagrange_basis`: for every index j of the node list the
inner product loop starts from ONE with running index m = 0 over all nodes. -/
def compute_lagrange_basis (nodes : List ℕ) (x : ℕ) : Option (List ℕ) :=
  sequenceOption ((List.range nodes.length).map
    (fun j => basisProd x (nodes.getD j 0) j 1 0 nodes))

/-- Embedding of `interpolate_polynomial_at`: asserts the two lengths agree
(a failed Rust assert is a panic, hence `none`), computes the basis at x, and
folds `interpolation = interpolation.add(eval.multiply(basis))` from ZERO. -/
def interpolate_polynomial_at (evaluations alphas : List ℕ) (x : ℕ) : Option ℕ :=
  if alphas.length = evaluations.length then
    (compute_lagrange_basis alphas x).map
      (fun basis =>
        (evaluations.zip basis).foldl
          (fun acc p => Mersenne61.add acc (Mersenne61.multiply p.1 p.2)) 0)
  else none

/-- Embedding of `compute_shamir_share` (src/mpc/mod.rs). The random polynomial of
degree `threshold` drawn from the rng is represented by its coefficient list
`randCoeffs` (threshold + 1 coefficients); the code then overwrites coefficient 0
with the secret and evaluates at the field images of 1..n_parties. -/
def compute_shamir_share (secret : ℕ) (n_parties threshold : ℕ)
    (randCoeffs : List ℕ) : List ShamirShare :=
  (List.range n_parties).map
    (fun i => ShamirShare.new (polyEval (secret :: randCoeffs.tail)
      (Mersenne61.fromU64 (i + 1))) threshold)

/-- Embedding of `reconstruct_secret` (src/mpc/mod.rs): interpolate at 0 over the
node sequence 1..shares.len(). -/
def reconstruct_secret (shares : List ShamirShare) : Option ℕ :=
  interpolate_polynomial_at (shares.map (fun s => s.value))
    (nodesList shares.length) 0

/-- Embedding of the recombination fold at the end of `run_multiply_protocol`:
`mult_share = h_shares[0].multiply_const(basis[0])`, then for the zipped pairs
from index 1 on, `mult_share = mult_share.add(share.multiply_const(r))`. -/
def recombine (h_shares : List ShamirShare) (basis : List ℕ) : ShamirShare :=
  ((basis.zip h_shares).drop 1).foldl
    (fun acc p => acc.add (p.2.multiply_const p.1))
    ((h_shares.getD 0 default).multiply_const (basis.getD 0 0))

/-- Embedding of one invocation of `run_multiply_protocol` across all parties at
once (src/mpc/mod.rs lines 54-101). Party i multiplies its two shares locally,
re-shares the product value with its own random polynomial `rands[i]`, and sends
sub-share j to party j; the premise of the protocol claims is that the network
delivers every sub-share (and the bincode round-trip is exact), so party j's
received vector is `[H_0_j, ..., H_(n-1)_j]`. Every party then computes the same
Lagrange basis at 0 over nodes 1..n and folds its received shares with it; a
panic inside the basis computation is `none`. -/
def run_multiply_protocol (a b : List ShamirShare) (n_parties threshold : ℕ)
    (rands : List (List ℕ)) : Option (List ShamirShare) :=
  let subshares : List (List ShamirShare) :=
    (List.range n_parties).map
      (fun i => compute_shamir_share
        ((a.getD i default).multiply (b.getD i default)).value
        n_parties threshold (rands.getD i []))
  (compute_lagrange_basis (nodesList n_parties) 0).map
    (fun basis =>
      (List.range n_parties).map
        (fun j => recombine (subshares.map (fun l => l.getD j default)) basis))

/-- The loop of the session driver (src/main.rs lines 82-91): fold every remaining
input share into the running product, one `run_multiply_protocol` invocation per
share, counting invocations. -/
def mainFoldGo (n_parties threshold : ℕ) :
    List ShamirShare → ℕ → List (List ShamirShare) → List (List (List ℕ)) →
    Option (List ShamirShare × ℕ)
  | cur, cnt, [], _ => some (cur, cnt)
  | cur, cnt, c :: cs, r :: rs =>
    (run_multiply_protocol cur c n_parties threshold r).bind
      (fun nxt => mainFoldGo n_parties threshold nxt (cnt + 1) cs rs)
  | _, _, _ :: _, [] => none

/-- Embedding of the multiplication phase of `main` (src/main.rs lines 74-91),
viewed globally: `cols[i]` is the vector over parties of the share of input i
(party p holds `cols[i][p]`), `rands[k]` supplies every party's re-sharing
polynomial for the k-th protocol invocation. The driver first multiplies
`shares[0]` and `shares[1]`, then folds in `shares[2..]` in forward order.
Returns the final share vector and the number of protocol invocations. -/
def main_driver (n_parties threshold : ℕ) (cols : List (List ShamirShare))
    (rands : List (List (List ℕ))) : Option (List ShamirShare × ℕ) :=
  match cols, rands with
  | c0 :: c1 :: rest, r0 :: rrest =>
    (run_multiply_protocol c0 c1 n_parties threshold r0).bind
      (fun first => mainFoldGo n_parties threshold first 1 rest rrest)
  | _, _ => none

/-- Embedding of the reveal phase of `main` (src/main.rs lines 93-112): every party
broadcasts its final share and reconstructs from all n of them. Composed with the
driver: returns the revealed value and the invocation count. -/
def main_session (n_parties threshold : ℕ) (cols : List (List ShamirShare))
    (rands : List (List (List ℕ))) : Option (ℕ × ℕ) :=
  (main_driver n_parties threshold cols rands).bind
    (fun pr => (reconstruct_secret pr.1).map (fun v => (v, pr.2)))

/-- Error taxonomy of src/net/channel.rs. -/
inductive ChannelError where
  | ChannelRecvError
  | ChannelSendError
  | ChannelNotAlive
  | EmptyBufferError
  | PeerUnknown
  | NoData
deriving DecidableEq, Repr

/-- A packet is an owned byte buffer. -/
abbrev Packet := List ℕ

/-- The visible state of a connected TCP stream: the bytes written by the peer and
not yet consumed by `read`. Delivery is modelled as exact and in order (TCP is a
reliable ordered stream); `write` is modelled as accepting the whole buffer. -/
structure TcpStreamModel where
  pending : List ℕ
deriving DecidableEq, Repr

/-- Embedding of `TcpChannel` (src/net/channel.rs): `stream` is `None` when the
channel is not connected (in particular after `close`). -/
structure TcpChannel where
  stream : Option TcpStreamModel
deriving DecidableEq, Repr

namespace TcpChannel

/-- Embedding of `TcpChannel::MAX_BUFFER_SIZE`: the receive buffer is 1024 bytes. -/
def MAX_BUFFER_SIZE : ℕ := 1024

/-- Embedding of `<TcpChannel as Channel>::close`: shut the stream down and drop it. -/
def close (c : TcpChannel) : TcpChannel × Except ChannelError Unit :=
  ({ stream := none }, Except.ok ())

/-- Embedding of `<TcpChannel as Channel>::send`: a single `stream.write` of the
packet bytes — no length prefix is written — returning the byte count. -/
def send (c : TcpChannel) (packet : Packet) : TcpChannel × Except ChannelError ℕ :=
  match c.stream with
  | none => (c, Except.error ChannelError.ChannelNotAlive)
  | some s =>
    ({ stream := some { pending := s.pending ++ packet } }, Except.ok packet.length)

/-- Embedding of `<TcpChannel as Channel>::recv`: a 1024-byte buffer is filled by a
single `stream.read`; empty reads are retried until the 10 s timeout (the elapsing
of the timeout with no data is the `NoData` error branch; time is not modelled, so
a permanently empty stream is mapped to that branch). The packet returned is
whatever the one successful read yielded. -/
def recv (c : TcpChannel) : TcpChannel × Except ChannelError Packet :=
  match c.stream with
  | none => (c, Except.error ChannelError.ChannelNotAlive)
  | some s =>
    if s.pending.isEmpty then (c, Except.error ChannelError.NoData)
    else
      ({ stream := some { pending := s.pending.drop MAX_BUFFER_SIZE } },
        Except.ok (s.pending.take MAX_BUFFER_SIZE))

end TcpChannel

/-- Embedding of `LoopBackChannel` (src/net/channel.rs): a FIFO of packets. -/
structure LoopBackChannel where
  buffer : List Packet
deriving DecidableEq, Repr

namespace LoopBackChannel

/-- Embedding of `<LoopBackChannel as Channel>::close`: clear the queue. -/
def close (c : LoopBackChannel) : LoopBackChannel × Except ChannelError Unit :=
  ({ buffer := [] }, Except.ok ())

/-- Embedding of `<LoopBackChannel as Channel>::send`: push a copy of the packet
to the back of the queue and return its length. -/
def send (c : LoopBackChannel) (packet : Packet) :
    LoopBackChannel × Except ChannelError ℕ :=
  ({ buffer := c.buffer ++ [packet] }, Except.ok packet.length)

/-- Embedding of `<LoopBackChannel as Channel>::recv`: pop the front of the queue,
`EmptyBufferError` when the queue is empty. -/
def recv (c : LoopBackChannel) : LoopBackChannel × Except ChannelError Packet :=
  match c.buffer with
  | [] => (c, Except.error ChannelError.EmptyBufferError)
  | q :: rest => ({ buffer := rest }, Except.ok q)

end LoopBackChannel

/-! Basic facts about the modulus and the reduction. -/

namespace Mersenne61

theorem modulus_eq : MODULUS = 2 ^ 61 - 1 := by unfold MODULUS; norm_num

theorem modulus_val : MODULUS = 2305843009213693951 := rfl

theorem modulus_pos : 0 < MODULUS := by unfold MODULUS; norm_num

theorem fromU64_eq_mod (v : ℕ) : fromU64 v = v % MODULUS := by
  have hM : 0 < MODULUS := modulus_pos
  induction v using Nat.strong_induction_on with
  | _ v ih =>
    rw [fromU64]
    split
    · rw [ih (v - MODULUS) (by omega)]
      exact (Nat.mod_eq_sub_mod (by assumption)).symm
    · exact (Nat.mod_eq_of_lt (by omega)).symm

theorem fromU64_lt (v : ℕ) : fromU64 v < MODULUS := by
  rw [fromU64_eq_mod]; exact Nat.mod_lt _ modulus_pos

theorem modulus_prime : Nat.Prime MODULUS := by
  rw [modulus_eq, show (2 : ℕ) ^ 61 - 1 = mersenne 61 from rfl]
  exact lucas_lehmer_sufficiency 61 (by norm_num) (by norm_num)

end Mersenne61

instance : Fact (Nat.Prime Mersenne61.MODULUS) := ⟨Mersenne61.modulus_prime⟩

namespace Mersenne61

theorem modulus_cast_zero : ((MODULUS : ℕ) : F) = 0 := ZMod.natCast_self MODULUS

theorem cast_mod_cancel (v : ℕ) : ((v % MODULUS : ℕ) : F) = (v : F) :=
  (ZMod.natCast_eq_natCast_iff _ _ _).mpr (Nat.mod_modEq v MODULUS)

theorem fromU64_cast (v : ℕ) : ((fromU64 v : ℕ) : F) = (v : F) := by
  rw [fromU64_eq_mod, cast_mod_cancel]

theorem cast_inj_of_lt {a b : ℕ} (ha : a < MODULUS) (hb : b < MODULUS)
    (h : (a : F) = (b : F)) : a = b := by
  have := (ZMod.natCast_eq_natCast_iff _ _ _).mp h
  unfold Nat.ModEq at this
  rwa [Nat.mod_eq_of_lt ha, Nat.mod_eq_of_lt hb] at this

theorem add_lt (a b : ℕ) : add a b < MODULUS := fromU64_lt _

theorem add_cast (a b : ℕ) : ((add a b : ℕ) : F) = (a : F) + (b : F) := by
  rw [add, fromU64_cast, Nat.cast_add]

theorem random_lt (v : ℕ) : random v < MODULUS := fromU64_lt _

theorem subtract_lt (a b : ℕ) : subtract a b < MODULUS := by
  unfold subtract; split <;> exact fromU64_lt _

theorem subtract_cast {a b : ℕ} (hb : b ≤ MODULUS) :
    ((subtract a b : ℕ) : F) = (a : F) - (b : F) := by
  unfold subtract
  split
  · rw [fromU64_cast, Nat.cast_sub (by omega), Nat.cast_add, modulus_cast_zero]
    ring
  · rw [fromU64_cast, Nat.cast_sub (by omega)]

theorem negate_lt (a : ℕ) : negate a < MODULUS := by
  unfold negate; split
  · exact fromU64_lt _
  · exact modulus_pos

theorem negate_cast {a : ℕ} (ha : a ≤ MODULUS) : ((negate a : ℕ) : F) = -(a : F) := by
  unfold negate
  split
  · rw [fromU64_cast, Nat.cast_sub ha, modulus_cast_zero]
    ring
  · simp_all

theorem subtract_eq_zero_iff {a b : ℕ} (ha : a < MODULUS) (hb : b < MODULUS) :
    subtract a b = 0 ↔ a = b := by
  unfold subtract
  split
  · rw [fromU64_eq_mod, Nat.mod_eq_of_lt (by omega)]
    omega
  · rw [fromU64_eq_mod, Nat.mod_eq_of_lt (by omega)]
    omega

/-! The multiplication routine. -/

theorem or_mod_two_pow_self (x n : ℕ) : x ||| x % 2 ^ n = x := by
  apply Nat.eq_of_testBit_eq
  intro i
  rw [Nat.testBit_or, Nat.testBit_mod_two_pow]
  cases h : x.testBit i <;> simp [h]

theorem and_modulus_eq_mod (x : ℕ) : x &&& MODULUS = x % 2 ^ 61 := by
  apply Nat.eq_of_testBit_eq
  intro i
  rw [Nat.testBit_and, Nat.testBit_mod_two_pow]
  have hM : MODULUS.testBit i = decide (i < 61) := by
    rcases Nat.lt_or_ge i 61 with h | h
    · have h2 : (2 : ℕ) ^ i ≤ MODULUS := by
        have := modulus_val
        have h3 : (2 : ℕ) ^ i ≤ 2 ^ 60 := Nat.pow_le_pow_right (by norm_num) (by omega)
        have h4 : (2 : ℕ) ^ 60 = 1152921504606846976 := by norm_num
        omega
      rw [modulus_eq, Nat.testBit_two_pow_sub_one]
    · have h2 : MODULUS < 2 ^ i := by
        have h3 : (2 : ℕ) ^ 61 ≤ 2 ^ i := Nat.pow_le_pow_right (by norm_num) h
        have := modulus_val
        have h4 : (2 : ℕ) ^ 61 = 2305843009213693952 := by norm_num
        omega
      rw [Nat.testBit_lt_two_pow h2]
      have h5 : ¬(i < 61) := by omega
      simp [h5]
  rw [hM]
  cases h : x.testBit i <;> simp [h]

theorem multiplyHigh_eq {a b : ℕ} (ha : a < MODULUS) (hb : b < MODULUS) :
    multiplyHigh a b = a * b / 2 ^ 61 := by
  have hM := modulus_val
  have hu : a * b < 2 ^ 61 * 2 ^ 61 := by
    apply Nat.mul_lt_mul_of_lt_of_lt <;> omega
  unfold multiplyHigh
  rw [Nat.shiftRight_eq_div_pow, Nat.shiftRight_eq_div_pow]
  have hdiv : a * b / 2 ^ 61 < 2 ^ 64 := by
    have h1 : a * b / 2 ^ 61 < 2 ^ 61 := Nat.div_lt_of_lt_mul (by linarith [hu])
    omega
  rw [Nat.mod_eq_of_lt hdiv]
  have hsplit : a * b % 2 ^ 64 / 2 ^ 61 = a * b / 2 ^ 61 % 2 ^ 3 := by
    have h1 : (2 : ℕ) ^ 64 = 2 ^ 61 * 2 ^ 3 := by norm_num
    rw [h1, Nat.mod_mul_right_div_self]
  rw [hsplit, or_mod_two_pow_self]

theorem multiplyLow_eq (a b : ℕ) : multiplyLow a b = a * b % 2 ^ 61 := by
  unfold multiplyLow
  rw [and_modulus_eq_mod, Nat.mod_mod_of_dvd]
  exact pow_dvd_pow 2 (by norm_num)

theorem two_pow_61_modEq_one : 2 ^ 61 ≡ 1 [MOD MODULUS] := by
  unfold Nat.ModEq MODULUS
  norm_num

theorem multiply_eq_mod {a b : ℕ} (ha : a < MODULUS) (hb : b < MODULUS) :
    multiply a b = a * b % MODULUS := by
  unfold multiply add
  rw [multiplyHigh_eq ha hb, multiplyLow_eq, fromU64_eq_mod, fromU64_eq_mod,
    fromU64_eq_mod, Nat.add_mod_mod, Nat.mod_add_mod]
  conv_rhs => rw [← Nat.div_add_mod (a * b) (2 ^ 61)]
  have hq : a * b / 2 ^ 61 ≡ 2 ^ 61 * (a * b / 2 ^ 61) [MOD MODULUS] := by
    simpa using (Nat.ModEq.mul_right (a * b / 2 ^ 61) two_pow_61_modEq_one).symm
  exact Nat.ModEq.add_right _ hq

theorem multiply_lt (a b : ℕ) : multiply a b < MODULUS := add_lt _ _

theorem multiply_cast {a b : ℕ} (ha : a < MODULUS) (hb : b < MODULUS) :
    ((multiply a b : ℕ) : F) = (a : F) * (b : F) := by
  rw [multiply_eq_mod ha hb, cast_mod_cancel, Nat.cast_mul]

/-! The extended Euclidean loop of `inverse`. -/

theorem natAbs_sub_eq_add {k w : ℤ} (h : k * w ≤ 0) :
    (k - w).natAbs = k.natAbs + w.natAbs := by
  rcases lt_trichotomy k 0 with hk | hk | hk <;>
    rcases lt_trichotomy w 0 with hw | hw | hw
  · exact absurd (mul_pos_of_neg_of_neg hk hw) (by omega)
  · omega
  · omega
  · omega
  · omega
  · omega
  · omega
  · omega
  · exact absurd (mul_pos hk hw) (by omega)

theorem egcdLoop_inv (a : ℕ) (k nk : ℤ) (r nr : ℕ)
    (hrr : nr < r)
    (hk : (k * a : ℤ) ≡ (r : ℤ) [ZMOD (MODULUS : ℤ)])
    (hnk : (nk * a : ℤ) ≡ (nr : ℤ) [ZMOD (MODULUS : ℤ)])
    (hgcd : Nat.gcd r nr = Nat.gcd MODULUS a)
    (hsign : k * nk ≤ 0)
    (habs : k.natAbs ≤ nk.natAbs)
    (hdet : (k * (nr : ℤ) - nk * (r : ℤ)).natAbs = MODULUS) :
    (egcdLoop k nk r nr).2 = Nat.gcd MODULUS a ∧
      ((egcdLoop k nk r nr).1 * a : ℤ) ≡ ((egcdLoop k nk r nr).2 : ℤ)
        [ZMOD (MODULUS : ℤ)] ∧
      (egcdLoop k nk r nr).1.natAbs * (egcdLoop k nk r nr).2 ≤ MODULUS := by
  induction k, nk, r, nr using egcdLoop.induct with
  | case1 k nk r =>
    rw [egcdLoop]
    simp only [dif_pos rfl]
    refine ⟨by simpa using hgcd, by simpa using hk, ?_⟩
    have h1 : nk.natAbs * r = MODULUS := by
      have h2 := hdet
      simp only [Nat.cast_zero, mul_zero, zero_sub, Int.natAbs_neg, Int.natAbs_mul,
        Int.natAbs_ofNat] at h2
      exact h2
    calc k.natAbs * r ≤ nk.natAbs * r := Nat.mul_le_mul_right r habs
    _ = MODULUS := h1
  | case2 k nk r nr hnr ih =>
    have hnrpos : 0 < nr := Nat.pos_of_ne_zero hnr
    have hq1 : 1 ≤ r / nr := (Nat.one_le_div_iff hnrpos).mpr (le_of_lt hrr)
    have hmodcast : ((r % nr : ℕ) : ℤ) = (r : ℤ) - ((r / nr : ℕ) : ℤ) * (nr : ℤ) := by
      have hdm := Nat.div_add_mod r nr
      zify at hdm
      push_cast
      linarith [hdm]
    rw [egcdLoop]
    simp only [dif_neg hnr]
    apply ih
    · exact Nat.mod_lt _ hnrpos
    · exact hnk
    · calc ((k - ((r / nr : ℕ) : ℤ) * nk) * a : ℤ)
          = k * a - ((r / nr : ℕ) : ℤ) * (nk * a) := by ring
      _ ≡ (r : ℤ) - ((r / nr : ℕ) : ℤ) * (nr : ℤ) [ZMOD (MODULUS : ℤ)] :=
          Int.ModEq.sub hk (Int.ModEq.mul_left _ hnk)
      _ = ((r % nr : ℕ) : ℤ) := hmodcast.symm
    · rw [Nat.gcd_comm nr (r % nr), ← Nat.gcd_rec nr r, Nat.gcd_comm nr r]
      exact hgcd
    · have h1 : nk * (k - ((r / nr : ℕ) : ℤ) * nk) =
          k * nk - ((r / nr : ℕ) : ℤ) * (nk * nk) := by ring
      have h2 : (0 : ℤ) ≤ ((r / nr : ℕ) : ℤ) * (nk * nk) :=
        mul_nonneg (by positivity) (mul_self_nonneg nk)
      rw [h1]
      linarith
    · have h1 : k * (((r / nr : ℕ) : ℤ) * nk) ≤ 0 := by
        have h2 : k * (((r / nr : ℕ) : ℤ) * nk) = ((r / nr : ℕ) : ℤ) * (k * nk) := by
          ring
        rw [h2]
        exact mul_nonpos_of_nonneg_of_nonpos (by positivity) hsign
      rw [natAbs_sub_eq_add h1, Int.natAbs_mul]
      have h3 : 1 ≤ ((r / nr : ℕ) : ℤ).natAbs := by
        simpa using hq1
      calc nk.natAbs = 1 * nk.natAbs := (one_mul _).symm
      _ ≤ ((r / nr : ℕ) : ℤ).natAbs * nk.natAbs := Nat.mul_le_mul_right _ h3
      _ ≤ k.natAbs + ((r / nr : ℕ) : ℤ).natAbs * nk.natAbs := Nat.le_add_left _ _
    · have h1 : nk * ((r % nr : ℕ) : ℤ) - (k - ((r / nr : ℕ) : ℤ) * nk) * (nr : ℤ)
          = -(k * (nr : ℤ) - nk * (r : ℤ)) := by
        rw [hmodcast]
        ring
      rw [h1, Int.natAbs_neg]
      exact hdet

theorem inverse_zero : inverse 0 = none := by unfold inverse; simp

theorem inverse_spec {a : ℕ} (ha : a ≠ 0) (haM : a < MODULUS) :
    ∃ b, inverse a = some b ∧ b < MODULUS ∧ ((b : ℕ) : F) = (a : F)⁻¹ ∧
      multiply a b = 1 := by
  have hM := modulus_val
  have hgcd1 : Nat.gcd MODULUS a = 1 := by
    have hcop : Nat.Coprime MODULUS a := by
      rw [Nat.Prime.coprime_iff_not_dvd modulus_prime]
      intro hdvd
      have := Nat.le_of_dvd (Nat.pos_of_ne_zero ha) hdvd
      omega
    exact hcop
  have hM0 : (MODULUS : ℤ) ≡ 0 [ZMOD (MODULUS : ℤ)] :=
    Int.modEq_zero_iff_dvd.mpr dvd_rfl
  have hinv := egcdLoop_inv a 0 1 MODULUS a haM
    (by simpa using hM0.symm)
    (by simpa using Int.ModEq.refl (a : ℤ))
    rfl (by simp) (by simp) (by simp)
  rw [hgcd1] at hinv
  obtain ⟨hg, hcong, hbound⟩ := hinv
  set k : ℤ := (egcdLoop 0 1 MODULUS a).1 with hkdef
  have hkabs : k.natAbs ≤ MODULUS := by simpa [hg] using hbound
  have hkcong : (k * a : ℤ) ≡ 1 [ZMOD (MODULUS : ℤ)] := by
    simpa [hg] using hcong
  have hknotM : k.natAbs ≠ MODULUS := by
    intro hceq
    have hdvdk : ((MODULUS : ℤ)) ∣ k := by
      rcases Int.natAbs_eq k with h | h
      · rw [h, hceq]
      · rw [h, hceq]
        exact (dvd_neg).mpr dvd_rfl
    have h0 : (k * a : ℤ) ≡ 0 [ZMOD (MODULUS : ℤ)] :=
      Int.modEq_zero_iff_dvd.mpr (hdvdk.mul_right _)
    have h01 := (h0.symm.trans hkcong).dvd
    have hle := Int.le_of_dvd one_pos (by simpa using h01)
    omega
  have hkrange : -(MODULUS : ℤ) < k ∧ k < MODULUS := by
    rcases Int.natAbs_eq k with h | h <;> omega
  set k2 : ℤ := if k < 0 then k + (MODULUS : ℤ) else k with hk2def
  have hk2range : 0 ≤ k2 ∧ k2 < MODULUS := by
    rw [hk2def]
    split <;> omega
  have hk2cong : (k2 * a : ℤ) ≡ 1 [ZMOD (MODULUS : ℤ)] := by
    rw [hk2def]
    split
    · calc (k + (MODULUS : ℤ)) * a = k * a + (MODULUS : ℤ) * a := by ring
      _ ≡ k * a + 0 * a [ZMOD (MODULUS : ℤ)] :=
          Int.ModEq.add_left _ (Int.ModEq.mul_right _ hM0)
      _ = k * a := by ring
      _ ≡ 1 [ZMOD (MODULUS : ℤ)] := hkcong
    · exact hkcong
  have hemod : k2 % (2 : ℤ) ^ 64 = k2 :=
    Int.emod_eq_of_lt hk2range.1 (by omega)
  set bv : ℕ := fromU64 (Int.toNat (k2 % (2 : ℤ) ^ 64)) with hbvdef
  have hblt : bv < MODULUS := fromU64_lt _
  have hbval : (bv : ℕ) = Int.toNat k2 := by
    rw [hbvdef, hemod, fromU64_eq_mod, Nat.mod_eq_of_lt (by omega)]
  have hbcastk : ((bv : ℕ) : F) = ((k2 : ℤ) : F) := by
    rw [hbval, ← Int.cast_natCast, Int.toNat_of_nonneg hk2range.1]
  have hFmul : ((bv : ℕ) : F) * ((a : ℕ) : F) = 1 := by
    rw [hbcastk]
    have h1 := (ZMod.intCast_eq_intCast_iff _ _ _).mpr hk2cong
    push_cast at h1
    exact h1
  have hbF : ((bv : ℕ) : F) = ((a : ℕ) : F)⁻¹ := eq_inv_of_mul_eq_one_left hFmul
  refine ⟨bv, ?_, hblt, hbF, ?_⟩
  · unfold inverse
    simp [ha, hbvdef]
  · apply cast_inj_of_lt (multiply_lt _ _) (by omega)
    rw [multiply_cast haM hblt, Nat.cast_one, mul_comm]
    exact hFmul

end Mersenne61

/-! Polynomial evaluation and the node sequence. -/

theorem polyEval_lt (cs : List ℕ) (x : ℕ) : polyEval cs x < Mersenne61.MODULUS := by
  cases cs with
  | nil => exact Mersenne61.modulus_pos
  | cons c t => exact Mersenne61.add_lt _ _

theorem polyEval_cast (cs : List ℕ) {x : ℕ} (hx : x < Mersenne61.MODULUS) :
    ((polyEval cs x : ℕ) : F) = (listToPoly cs).eval ((x : ℕ) : F) := by
  induction cs with
  | nil => simp [polyEval, listToPoly]
  | cons c t ih =>
    show ((Mersenne61.add (Mersenne61.multiply (polyEval t x) x) c : ℕ) : F) = _
    rw [Mersenne61.add_cast, Mersenne61.multiply_cast (polyEval_lt t x) hx, ih]
    show _ = (Polynomial.C ((c : ℕ) : F) + Polynomial.X * listToPoly t).eval _
    simp [Polynomial.eval_add, Polynomial.eval_mul]
    ring

theorem listToPoly_degree_lt (cs : List ℕ) :
    (listToPoly cs).degree < ((cs.length : ℕ) : WithBot ℕ) := by
  induction cs with
  | nil =>
    show (0 : Polynomial F).degree < _
    rw [Polynomial.degree_zero]
    exact WithBot.bot_lt_coe _
  | cons c t ih =>
    show (Polynomial.C ((c : ℕ) : F) + Polynomial.X * listToPoly t).degree < _
    apply lt_of_le_of_lt (Polynomial.degree_add_le _ _)
    rw [max_lt_iff]
    constructor
    · apply lt_of_le_of_lt Polynomial.degree_C_le
      exact_mod_cast Nat.succ_pos t.length
    · rw [Polynomial.degree_mul, Polynomial.degree_X]
      have h2 : (1 : WithBot ℕ) + (listToPoly t).degree < 1 + (t.length : WithBot ℕ) :=
        WithBot.add_lt_add_left (by simp) ih
      apply lt_of_lt_of_le h2
      have h3 : (((c :: t).length : ℕ) : WithBot ℕ) = (t.length : WithBot ℕ) + 1 := by
        show (((t.length + 1 : ℕ)) : WithBot ℕ) = _
        push_cast
        rfl
      rw [h3, add_comm]

theorem listToPoly_eval_zero (c : ℕ) (t : List ℕ) :
    (listToPoly (c :: t)).eval 0 = ((c : ℕ) : F) := by
  show (Polynomial.C ((c : ℕ) : F) + Polynomial.X * listToPoly t).eval 0 = _
  simp

theorem getD_map_range {α : Type} (f : ℕ → α) (d : α) {k i : ℕ} (hi : i < k) :
    ((List.range k).map f).getD i d = f i := by
  rw [List.getD_eq_getElem _ _ (by simpa using hi)]
  simp

theorem nodesList_length (k : ℕ) : (nodesList k).length = k := by
  simp [nodesList]

theorem nodesList_getD {k i : ℕ} (hi : i < k) :
    (nodesList k).getD i 0 = Mersenne61.fromU64 (i + 1) := by
  unfold nodesList
  exact getD_map_range _ _ hi

theorem nodesList_mem_lt (k : ℕ) : ∀ y ∈ nodesList k, y < Mersenne61.MODULUS := by
  intro y hy
  unfold nodesList at hy
  simp only [List.mem_map] at hy
  obtain ⟨i, _, rfl⟩ := hy
  exact Mersenne61.fromU64_lt _

theorem node_inj {k : ℕ} (hk : k ≤ Mersenne61.MODULUS) {i j : ℕ}
    (hi : i < k) (hj : j < k)
    (h : Mersenne61.fromU64 (i + 1) = Mersenne61.fromU64 (j + 1)) : i = j := by
  rw [Mersenne61.fromU64_eq_mod, Mersenne61.fromU64_eq_mod] at h
  have hM := Mersenne61.modulus_pos
  rcases Nat.lt_or_ge (i + 1) Mersenne61.MODULUS with h1 | h1 <;>
    rcases Nat.lt_or_ge (j + 1) Mersenne61.MODULUS with h2 | h2
  · rw [Nat.mod_eq_of_lt h1, Nat.mod_eq_of_lt h2] at h
    omega
  · have hj1 : j + 1 = Mersenne61.MODULUS := by omega
    rw [Nat.mod_eq_of_lt h1, hj1, Nat.mod_self] at h
    omega
  · have hi1 : i + 1 = Mersenne61.MODULUS := by omega
    rw [Nat.mod_eq_of_lt h2, hi1, Nat.mod_self] at h
    omega
  · omega

theorem nodeF_cast (i : ℕ) :
    ((Mersenne61.fromU64 (i + 1) : ℕ) : F) = nodeF i := by
  rw [Mersenne61.fromU64_cast]
  rfl

theorem nodeF_inj {k : ℕ} (hk : k ≤ Mersenne61.MODULUS) {i j : ℕ}
    (hi : i < k) (hj : j < k) (h : nodeF i = nodeF j) : i = j := by
  apply node_inj hk hi hj
  apply Mersenne61.cast_inj_of_lt (Mersenne61.fromU64_lt _) (Mersenne61.fromU64_lt _)
  rw [nodeF_cast, nodeF_cast, h]

/-! The Lagrange basis computation. -/

theorem basisProd_spec (x : ℕ) (nds : List ℕ) {j : ℕ} (hj : j < nds.length)
    (hmem : ∀ y ∈ nds, y < Mersenne61.MODULUS)
    (hdist : ∀ m, m < nds.length → m ≠ j → nds.getD m 0 ≠ nds.getD j 0) :
    ∀ (rest : List ℕ) (m acc : ℕ), nds.drop m = rest → acc < Mersenne61.MODULUS →
      ∃ b, basisProd x (nds.getD j 0) j acc m rest = some b ∧
        b < Mersenne61.MODULUS ∧
        ((b : ℕ) : F) = ((acc : ℕ) : F) *
          ∏ i in Finset.Ico m nds.length,
            (if i = j then 1
             else (((x : ℕ) : F) - ((nds.getD i 0 : ℕ) : F)) *
               (((nds.getD j 0 : ℕ) : F) - ((nds.getD i 0 : ℕ) : F))⁻¹) := by
  intro rest
  induction rest with
  | nil =>
    intro m acc hdrop hacc
    have hlen : nds.length ≤ m := by
      have hl := congrArg List.length hdrop
      simp only [List.length_drop, List.length_nil] at hl
      omega
    refine ⟨acc, rfl, hacc, ?_⟩
    rw [Finset.Ico_eq_empty (by omega), Finset.prod_empty, mul_one]
  | cons y rest ih =>
    intro m acc hdrop hacc
    have hmlt : m < nds.length := by
      have hl := congrArg List.length hdrop
      simp only [List.length_drop, List.length_cons] at hl
      omega
    rw [List.drop_eq_getElem_cons hmlt] at hdrop
    have hy : nds.getD m 0 = y := by
      rw [List.getD_eq_getElem _ _ hmlt]
      exact (List.cons_eq_cons.mp hdrop).1
    have hrest : nds.drop (m + 1) = rest := (List.cons_eq_cons.mp hdrop).2
    have hylt : y < Mersenne61.MODULUS := by
      rw [← hy, List.getD_eq_getElem _ _ hmlt]
      exact hmem _ (List.getElem_mem _)
    have hjlt : nds.getD j 0 < Mersenne61.MODULUS := by
      rw [List.getD_eq_getElem _ _ hj]
      exact hmem _ (List.getElem_mem _)
    by_cases hmj : m = j
    · obtain ⟨b, hb, hblt, hbval⟩ := ih (m + 1) acc hrest hacc
      refine ⟨b, ?_, hblt, ?_⟩
      · rw [basisProd, if_pos hmj]
        exact hb
      · rw [hbval, Finset.prod_eq_prod_Ico_succ_bot hmlt, if_pos hmj, one_mul]
    · have hne : Mersenne61.subtract (nds.getD j 0) y ≠ 0 := by
        rw [Ne, Mersenne61.subtract_eq_zero_iff hjlt hylt]
        rw [← hy]
        exact fun hcon => (hdist m hmlt hmj) (hcon.symm)
      obtain ⟨inv, hinv, hinvlt, hinvcast, _⟩ :=
        Mersenne61.inverse_spec hne (Mersenne61.subtract_lt _ _)
      set acc2 : ℕ := Mersenne61.multiply acc
        (Mersenne61.multiply (Mersenne61.subtract x y) inv) with hacc2
      obtain ⟨b, hb, hblt, hbval⟩ := ih (m + 1) acc2 hrest (Mersenne61.multiply_lt _ _)
      refine ⟨b, ?_, hblt, ?_⟩
      · rw [basisProd, if_neg hmj, hinv]
        exact hb
      · rw [hbval, Finset.prod_eq_prod_Ico_succ_bot hmlt, if_neg hmj]
        rw [hacc2, Mersenne61.multiply_cast hacc (Mersenne61.multiply_lt _ _),
          Mersenne61.multiply_cast (Mersenne61.subtract_lt _ _) hinvlt,
          Mersenne61.subtract_cast (le_of_lt hylt), hinvcast,
          Mersenne61.subtract_cast (le_of_lt hylt), hy]
        ring

theorem sequenceOption_some {α : Type} (os : List (Option α))
    (h : ∀ o ∈ os, o.isSome) :
    ∃ B, sequenceOption os = some B ∧ B.length = os.length ∧
      ∀ (d : α) (i : ℕ), i < os.length → some (B.getD i d) = os.getD i none := by
  induction os with
  | nil =>
    refine ⟨[], rfl, rfl, ?_⟩
    intro d i hi
    simp at hi
  | cons o os ih =>
    have ho : o.isSome := h o (List.mem_cons_self o os)
    obtain ⟨a, ha⟩ := Option.isSome_iff_exists.mp ho
    obtain ⟨B, hB, hlen, hget⟩ := ih (fun o2 ho2 => h o2 (List.mem_cons_of_mem _ ho2))
    refine ⟨a :: B, ?_, by simp [hlen], ?_⟩
    · simp [sequenceOption, ha, hB]
    · intro d i hi
      cases i with
      | zero => simp [ha]
      | succ n =>
        simp only [List.getD_cons_succ]
        exact hget d n (by simpa using hi)

theorem compute_lagrange_basis_spec (nds : List ℕ) (x : ℕ)
    (hmem : ∀ y ∈ nds, y < Mersenne61.MODULUS)
    (hdist : ∀ m1 m2, m1 < nds.length → m2 < nds.length → m1 ≠ m2 →
      nds.getD m1 0 ≠ nds.getD m2 0) :
    ∃ B, compute_lagrange_basis nds x = some B ∧ B.length = nds.length ∧
      (∀ y ∈ B, y < Mersenne61.MODULUS) ∧
      ∀ j, j < nds.length → ((B.getD j 0 : ℕ) : F) =
        ∏ i in Finset.range nds.length,
          (if i = j then 1
           else (((x : ℕ) : F) - ((nds.getD i 0 : ℕ) : F)) *
             (((nds.getD j 0 : ℕ) : F) - ((nds.getD i 0 : ℕ) : F))⁻¹) := by
  have hone : (1 : ℕ) < Mersenne61.MODULUS := by
    have := Mersenne61.modulus_val
    omega
  have hprd : ∀ j, j < nds.length →
      ∃ b, basisProd x (nds.getD j 0) j 1 0 nds = some b ∧
        b < Mersenne61.MODULUS ∧
        ((b : ℕ) : F) = ∏ i in Finset.range nds.length,
          (if i = j then 1
           else (((x : ℕ) : F) - ((nds.getD i 0 : ℕ) : F)) *
             (((nds.getD j 0 : ℕ) : F) - ((nds.getD i 0 : ℕ) : F))⁻¹) := by
    intro j hj
    obtain ⟨b, hb, hblt, hbval⟩ := basisProd_spec x nds hj hmem
      (fun m hm hmj => hdist m j hm hj hmj) nds 0 1 (List.drop_zero nds) hone
    refine ⟨b, hb, hblt, ?_⟩
    rw [hbval, Nat.cast_one, one_mul, Finset.range_eq_Ico]
  obtain ⟨B, hB, hlen, hget⟩ := sequenceOption_some
    ((List.range nds.length).map (fun j => basisProd x (nds.getD j 0) j 1 0 nds))
    (by
      intro o hmem2
      simp only [List.mem_map, List.mem_range] at hmem2
      obtain ⟨j, hj, rfl⟩ := hmem2
      obtain ⟨b, hb, _, _⟩ := hprd j hj
      rw [hb]
      rfl)
  have hlen2 : B.length = nds.length := by
    rw [hlen]
    simp
  have hgetD : ∀ j, j < nds.length → ∃ b, B.getD j 0 = b ∧ b < Mersenne61.MODULUS ∧
      ((b : ℕ) : F) = ∏ i in Finset.range nds.length,
        (if i = j then 1
         else (((x : ℕ) : F) - ((nds.getD i 0 : ℕ) : F)) *
           (((nds.getD j 0 : ℕ) : F) - ((nds.getD i 0 : ℕ) : F))⁻¹) := by
    intro j hj
    obtain ⟨b, hb, hblt, hbval⟩ := hprd j hj
    have h1 := hget 0 j (by simpa using hj)
    rw [getD_map_range _ _ hj, hb] at h1
    exact ⟨b, Option.some_injective _ h1, hblt, hbval⟩
  refine ⟨B, ?_, hlen2, ?_, ?_⟩
  · rw [compute_lagrange_basis]
    exact hB
  · intro yv hyv
    obtain ⟨i, hi, hieq⟩ := List.mem_iff_getElem.mp hyv
    obtain ⟨b, hb, hblt, _⟩ := hgetD i (by omega)
    rw [List.getD_eq_getElem _ _ hi] at hb
    rw [← hieq, hb]
    exact hblt
  · intro j hj
    obtain ⟨b, hb, _, hbval⟩ := hgetD j hj
    rw [hb, hbval]

/-- C10: for every list of pairwise-distinct reduced nodes and every evaluation
point x, `compute_lagrange_basis` never hits a zero denominator: every
`inverse().unwrap()` succeeds and the function totally returns one basis element
per node. -/
theorem c10_lagrange_basis_total (nodes : List ℕ) (x : ℕ)
    (hmem : ∀ y ∈ nodes, y < Mersenne61.MODULUS)
    (hdist : List.Pairwise (fun a b => a ≠ b) nodes) :
    ∃ B, compute_lagrange_basis nodes x = some B ∧ B.length = nodes.length := by
  have hd : ∀ m1 m2, m1 < nodes.length → m2 < nodes.length → m1 ≠ m2 →
      nodes.getD m1 0 ≠ nodes.getD m2 0 := by
    intro m1 m2 hm1 hm2 hne
    rw [List.getD_eq_getElem _ _ hm1, List.getD_eq_getElem _ _ hm2]
    rcases Nat.lt_or_ge m1 m2 with h | h
    · exact List.pairwise_iff_getElem.mp hdist m1 m2 hm1 hm2 h
    · have h2 : m2 < m1 := by omega
      exact fun hc => (List.pairwise_iff_getElem.mp hdist m2 m1 hm2 hm1 h2) hc.symm
  obtain ⟨B, hB, hlen, _, _⟩ := compute_lagrange_basis_spec nodes x hmem hd
  exact ⟨B, hB, hlen⟩

/-- Witness for C10 at the concrete node list [1, 2] and evaluation point 0. -/
theorem c10_lagrange_basis_total_witness :
    (∀ y ∈ [1, 2], y < Mersenne61.MODULUS) ∧
      List.Pairwise (fun a b : ℕ => a ≠ b) [1, 2] ∧
      ∃ B, compute_lagrange_basis [1, 2] 0 = some B ∧ B.length = 2 := by
  have h1 : ∀ y ∈ [1, 2], y < Mersenne61.MODULUS := by
    intro y hy
    have := Mersenne61.modulus_val
    simp only [List.mem_cons, List.not_mem_nil, or_false, List.mem_singleton] at hy
    rcases hy with rfl | rfl <;> omega
  have h2 : List.Pairwise (fun a b : ℕ => a ≠ b) [1, 2] := by
    simp
  exact ⟨h1, h2, c10_lagrange_basis_total [1, 2] 0 h1 h2⟩

/-! Bridge to Lagrange interpolation over the field. -/

theorem lagrange_eval_zero (k : ℕ) (hkM : k ≤ Mersenne61.MODULUS)
    (f : Polynomial F) (hdeg : f.degree < ((k : ℕ) : WithBot ℕ)) :
    ∑ j in Finset.range k, f.eval (nodeF j) *
      (∏ i in Finset.range k,
        (if i = j then 1 else (0 - nodeF i) * (nodeF j - nodeF i)⁻¹)) = f.eval 0 := by
  classical
  have hinj : Set.InjOn nodeF (Finset.range k) := by
    intro i hi j hj h
    simp only [Finset.coe_range, Set.mem_Iio] at hi hj
    exact nodeF_inj hkM hi hj h
  have hcard : f.degree < ((Finset.range k).card : WithBot ℕ) := by
    simpa using hdeg
  have heq := Lagrange.eq_interpolate hinj hcard
  have h0 : f.eval 0 = ∑ j in Finset.range k,
      f.eval (nodeF j) * (Lagrange.basis (Finset.range k) nodeF j).eval 0 := by
    conv_lhs => rw [heq]
    rw [Lagrange.interpolate_apply, Polynomial.eval_finset_sum]
    apply Finset.sum_congr rfl
    intro j hj
    rw [Polynomial.eval_mul, Polynomial.eval_C]
  rw [h0]
  apply Finset.sum_congr rfl
  intro j hj
  congr 1
  rw [Lagrange.basis, Polynomial.eval_prod]
  rw [← Finset.mul_prod_erase (Finset.range k) _ hj, if_pos rfl, one_mul]
  apply Finset.prod_congr rfl
  intro i hi
  have hij : i ≠ j := (Finset.mem_erase.mp hi).1
  rw [if_neg hij, Lagrange.basisDivisor]
  simp only [Polynomial.eval_mul, Polynomial.eval_C, Polynomial.eval_sub,
    Polynomial.eval_X]
  ring

/-! The interpolation fold. -/

theorem foldl_add_mul_spec (pairs : List (ℕ × ℕ)) :
    ∀ init : ℕ, init < Mersenne61.MODULUS →
    (∀ pr ∈ pairs, pr.1 < Mersenne61.MODULUS ∧ pr.2 < Mersenne61.MODULUS) →
    (pairs.foldl (fun acc p => Mersenne61.add acc (Mersenne61.multiply p.1 p.2))
        init) < Mersenne61.MODULUS ∧
    (((pairs.foldl (fun acc p => Mersenne61.add acc (Mersenne61.multiply p.1 p.2))
        init) : ℕ) : F) = ((init : ℕ) : F) +
      (pairs.map (fun pr => ((pr.1 : ℕ) : F) * ((pr.2 : ℕ) : F))).sum := by
  induction pairs with
  | nil =>
    intro init hinit hmem
    exact ⟨hinit, by simp⟩
  | cons p t ih =>
    intro init hinit hmem
    have hp := hmem p (List.mem_cons_self p t)
    have ht := fun pr hpr => hmem pr (List.mem_cons_of_mem _ hpr)
    have hstep := ih (Mersenne61.add init (Mersenne61.multiply p.1 p.2))
      (Mersenne61.add_lt _ _) ht
    refine ⟨hstep.1, ?_⟩
    rw [List.foldl_cons, hstep.2, Mersenne61.add_cast,
      Mersenne61.multiply_cast hp.1 hp.2]
    simp only [List.map_cons, List.sum_cons]
    ring

theorem sum_zip_map (A : List ℕ) :
    ∀ (B : List ℕ) (k : ℕ), A.length = k → B.length = k →
    ((A.zip B).map (fun pr => ((pr.1 : ℕ) : F) * ((pr.2 : ℕ) : F))).sum
      = ∑ i in Finset.range k, ((A.getD i 0 : ℕ) : F) * ((B.getD i 0 : ℕ) : F) := by
  induction A with
  | nil =>
    intro B k hA hB
    subst hA
    simp
  | cons a A ih =>
    intro B k hA hB
    cases B with
    | nil =>
      rw [List.length_cons] at hA
      rw [List.length_nil] at hB
      omega
    | cons b B =>
      rw [List.length_cons] at hA hB
      cases k with
      | zero => omega
      | succ k2 =>
        rw [List.zip_cons_cons, List.map_cons, List.sum_cons,
          ih B k2 (by omega) (by omega), Finset.sum_range_succ']
        simp only [List.getD_cons_succ, List.getD_cons_zero]
        ring

/-! Reconstruction recovers the evaluation at 0 of the shared polynomial. -/

theorem reconstruct_secret_spec (shares : List ShamirShare) (k : ℕ)
    (hlen : shares.length = k) (hkM : k ≤ Mersenne61.MODULUS)
    (hvals : ∀ s ∈ shares, s.value < Mersenne61.MODULUS)
    (f : Polynomial F) (hdeg : f.degree < ((k : ℕ) : WithBot ℕ))
    (heval : ∀ j, j < k → (((shares.getD j default).value : ℕ) : F) = f.eval (nodeF j)) :
    ∃ w, reconstruct_secret shares = some w ∧ w < Mersenne61.MODULUS ∧
      ((w : ℕ) : F) = f.eval 0 := by
  have hdista : ∀ m1 m2, m1 < (nodesList k).length → m2 < (nodesList k).length →
      m1 ≠ m2 → (nodesList k).getD m1 0 ≠ (nodesList k).getD m2 0 := by
    intro m1 m2 hm1 hm2 hne
    rw [nodesList_length] at hm1 hm2
    rw [nodesList_getD hm1, nodesList_getD hm2]
    exact fun hc => hne (node_inj hkM hm1 hm2 hc)
  obtain ⟨B, hB, hBlen, hBlt, hBval⟩ :=
    compute_lagrange_basis_spec (nodesList k) 0 (nodesList_mem_lt k) hdista
  rw [nodesList_length] at hBlen
  have hvlen : (shares.map (fun s => s.value)).length = k := by
    rw [List.length_map, hlen]
  have hzip := foldl_add_mul_spec ((shares.map (fun s => s.value)).zip B) 0
    Mersenne61.modulus_pos
    (by
      intro pr hpr
      have hmem2 := List.of_mem_zip hpr
      constructor
      · obtain ⟨s, hs, hv⟩ := List.mem_map.mp hmem2.1
        rw [← hv]
        exact hvals s hs
      · exact hBlt _ hmem2.2)
  refine ⟨_, ?_, hzip.1, ?_⟩
  · rw [reconstruct_secret, interpolate_polynomial_at, if_pos (by
      rw [nodesList_length, hvlen, hlen]), hlen, hB]
    rfl
  · rw [hzip.2, Nat.cast_zero, zero_add, sum_zip_map _ B k hvlen hBlen,
      ← lagrange_eval_zero k hkM f hdeg]
    apply Finset.sum_congr rfl
    intro i hi
    have hik : i < k := Finset.mem_range.mp hi
    congr 1
    · have hv : (shares.map (fun s => s.value)).getD i 0 =
          (shares.getD i default).value := by
        rw [List.getD_eq_getElem _ _ (by rw [hvlen]; exact hik), List.getElem_map,
          List.getD_eq_getElem _ _ (by rw [hlen]; exact hik)]
      rw [hv]
      exact heval i hik
    · rw [hBval i (by rw [nodesList_length]; exact hik), nodesList_length]
      apply Finset.prod_congr rfl
      intro m hm
      have hmk : m < k := Finset.mem_range.mp hm
      rw [nodesList_getD hmk, nodesList_getD hik, nodeF_cast, nodeF_cast,
        Nat.cast_zero]

/-! Properties of share creation. -/

theorem compute_shamir_share_length (s N t : ℕ) (rand : List ℕ) :
    (compute_shamir_share s N t rand).length = N := by
  simp [compute_shamir_share]

theorem compute_shamir_share_getD (s N t : ℕ) (rand : List ℕ) {j : ℕ} (hj : j < N) :
    (compute_shamir_share s N t rand).getD j default =
      ShamirShare.new (polyEval (s :: rand.tail) (Mersenne61.fromU64 (j + 1))) t := by
  unfold compute_shamir_share
  exact getD_map_range _ _ hj

theorem compute_shamir_share_value_lt (s N t : ℕ) (rand : List ℕ) :
    ∀ sh ∈ compute_shamir_share s N t rand, sh.value < Mersenne61.MODULUS := by
  intro sh hsh
  unfold compute_shamir_share at hsh
  obtain ⟨i, _, rfl⟩ := List.mem_map.mp hsh
  exact polyEval_lt _ _

theorem compute_shamir_share_degree (s N t : ℕ) (rand : List ℕ) :
    ∀ sh ∈ compute_shamir_share s N t rand, sh.degree = t := by
  intro sh hsh
  unfold compute_shamir_share at hsh
  obtain ⟨i, _, rfl⟩ := List.mem_map.mp hsh
  rfl

theorem compute_shamir_share_value_cast (s N t : ℕ) (rand : List ℕ) {j : ℕ}
    (hj : j < N) :
    ((((compute_shamir_share s N t rand).getD j default).value : ℕ) : F) =
      (listToPoly (s :: rand.tail)).eval (nodeF j) := by
  rw [compute_shamir_share_getD s N t rand hj]
  show ((polyEval (s :: rand.tail) (Mersenne61.fromU64 (j + 1)) : ℕ) : F) = _
  rw [polyEval_cast _ (Mersenne61.fromU64_lt _), nodeF_cast]

/-- C2 amended: reconstructing from the FIRST t+1 shares (`reconstruct_secret`
always interpolates over the node prefix 1..len, so only the selection whose
positions match those nodes recovers the secret), and from all N shares,
both yield the secret. Party counts are restricted to the field size so the
evaluation nodes stay distinct. -/
theorem c2_share_reconstruct_roundtrip (s t N : ℕ) (rand : List ℕ)
    (hs : s < Mersenne61.MODULUS) (hrand : rand.length = t + 1)
    (hN : 2 * t + 1 ≤ N) (hNM : N ≤ Mersenne61.MODULUS) :
    reconstruct_secret ((compute_shamir_share s N t rand).take (t + 1)) = some s ∧
      reconstruct_secret (compute_shamir_share s N t rand) = some s := by
  have hplen : (s :: rand.tail).length = t + 1 := by
    simp only [List.length_cons, List.length_tail, hrand]
    omega
  have hdeg : (listToPoly (s :: rand.tail)).degree < (((t + 1 : ℕ)) : WithBot ℕ) := by
    rw [← hplen]
    exact listToPoly_degree_lt _
  have heval0 : (listToPoly (s :: rand.tail)).eval 0 = ((s : ℕ) : F) :=
    listToPoly_eval_zero s rand.tail
  constructor
  · have hlen2 : ((compute_shamir_share s N t rand).take (t + 1)).length = t + 1 := by
      rw [List.length_take, compute_shamir_share_length]
      omega
    obtain ⟨w, hw, hwlt, hwcast⟩ := reconstruct_secret_spec
      ((compute_shamir_share s N t rand).take (t + 1)) (t + 1) hlen2
      (by omega) (fun sh hsh =>
        compute_shamir_share_value_lt s N t rand sh (List.mem_of_mem_take hsh))
      (listToPoly (s :: rand.tail)) hdeg
      (by
        intro j hj
        have hjN : j < N := by omega
        have hgt : ((compute_shamir_share s N t rand).take (t + 1)).getD j default =
            (compute_shamir_share s N t rand).getD j default := by
          rw [List.getD_eq_getElem _ _ (by rw [hlen2]; exact hj),
            List.getD_eq_getElem _ _ (by rw [compute_shamir_share_length]; exact hjN)]
          exact List.getElem_take _
        rw [hgt]
        exact compute_shamir_share_value_cast s N t rand hjN)
    rw [hw]
    congr 1
    apply Mersenne61.cast_inj_of_lt hwlt hs
    rw [hwcast, heval0]
  · obtain ⟨w, hw, hwlt, hwcast⟩ := reconstruct_secret_spec
      (compute_shamir_share s N t rand) N (compute_shamir_share_length s N t rand)
      hNM (compute_shamir_share_value_lt s N t rand)
      (listToPoly (s :: rand.tail))
      (lt_of_lt_of_le hdeg (by exact_mod_cast (by omega : t + 1 ≤ N)))
      (fun j hj => compute_shamir_share_value_cast s N t rand hj)
    rw [hw]
    congr 1
    apply Mersenne61.cast_inj_of_lt hwlt hs
    rw [hwcast, heval0]

/-- Witness for the amended C2 at s = 5, t = 1, N = 3 and random coefficients
[0, 7]. -/
theorem c2_share_reconstruct_roundtrip_witness :
    (5 < Mersenne61.MODULUS ∧ ([0, 7] : List ℕ).length = 1 + 1 ∧
      2 * 1 + 1 ≤ 3 ∧ 3 ≤ Mersenne61.MODULUS) ∧
    (reconstruct_secret ((compute_shamir_share 5 3 1 [0, 7]).take (1 + 1)) = some 5 ∧
      reconstruct_secret (compute_shamir_share 5 3 1 [0, 7]) = some 5) := by
  have h1 : (5 : ℕ) < Mersenne61.MODULUS := by
    rw [Mersenne61.modulus_val]
    omega
  have h4 : (3 : ℕ) ≤ Mersenne61.MODULUS := by
    rw [Mersenne61.modulus_val]
    omega
  exact ⟨⟨h1, rfl, by omega, h4⟩,
    c2_share_reconstruct_roundtrip 5 1 3 [0, 7] h1 rfl (by omega) h4⟩

/-- Counterexample to C2 as stated: taking a t+1-subset that is NOT the first
t+1 shares changes the result. Sharing s = 0 with threshold t = 1 over N = 3
parties using the polynomial f(x) = x (random coefficients [0, 1]) gives the
shares f(1), f(2), f(3); applying `reconstruct_secret` to the LAST two of them
interpolates the values f(2), f(3) at the nodes 1, 2 and returns 1, not the
secret 0. -/
theorem c2_counterexample :
    reconstruct_secret ((compute_shamir_share 0 3 1 [0, 1]).drop 1) = some 1 ∧
      (1 : ℕ) ≠ (0 : ℕ) := by
  refine ⟨?_, one_ne_zero⟩
  have hM := Mersenne61.modulus_val
  have hlen2 : ((compute_shamir_share 0 3 1 [0, 1]).drop 1).length = 2 := by
    rw [List.length_drop, compute_shamir_share_length]
  obtain ⟨w, hw, hwlt, hwcast⟩ := reconstruct_secret_spec
    ((compute_shamir_share 0 3 1 [0, 1]).drop 1) 2 hlen2 (by omega)
    (fun sh hsh =>
      compute_shamir_share_value_lt 0 3 1 [0, 1] sh (List.mem_of_mem_drop hsh))
    (listToPoly [1, 1])
    (by
      have h2 : (([1, 1] : List ℕ)).length = 2 := rfl
      have := listToPoly_degree_lt ([1, 1] : List ℕ)
      rw [h2] at this
      exact this)
    (by
      intro j hj
      have hgt : ((compute_shamir_share 0 3 1 [0, 1]).drop 1).getD j default =
          (compute_shamir_share 0 3 1 [0, 1]).getD (1 + j) default := by
        rw [List.getD_eq_getElem _ _ (by rw [hlen2]; exact hj),
          List.getD_eq_getElem _ _ (by rw [compute_shamir_share_length]; omega)]
        exact List.getElem_drop _
      rw [hgt, compute_shamir_share_value_cast 0 3 1 [0, 1] (by omega)]
      show (listToPoly [0, 1]).eval (nodeF (1 + j)) = (listToPoly [1, 1]).eval (nodeF j)
      simp only [listToPoly, List.foldr, nodeF, Polynomial.eval_add,
        Polynomial.eval_mul, Polynomial.eval_C, Polynomial.eval_X, mul_zero,
        add_zero, Polynomial.eval_zero]
      push_cast
      ring)
  rw [hw]
  congr 1
  apply Mersenne61.cast_inj_of_lt hwlt (by omega)
  rw [hwcast]
  exact listToPoly_eval_zero 1 [1]

/-! Claim theorems for the field layer. -/

theorem inverse_some_lt {a b : ℕ} (h : Mersenne61.inverse a = some b) :
    b < Mersenne61.MODULUS := by
  unfold Mersenne61.inverse at h
  split at h
  · exact absurd h (by simp)
  · rw [Option.some_inj] at h
    rw [← h]
    exact Mersenne61.fromU64_lt _

theorem inverse_two_eq : Mersenne61.inverse 2 = some 1152921504606846976 := by
  have hM := Mersenne61.modulus_val
  obtain ⟨b, hb, hblt, hbcast, _⟩ := Mersenne61.inverse_spec
    (a := 2) (by omega) (by omega)
  rw [hb]
  congr 1
  apply Mersenne61.cast_inj_of_lt hblt (by omega)
  rw [hbcast]
  symm
  apply eq_inv_of_mul_eq_one_left
  have hcast : (((1152921504606846976 * 2 : ℕ)) : F) = ((1 : ℕ) : F) := by
    rw [← Mersenne61.cast_mod_cancel (1152921504606846976 * 2)]
    norm_num [Mersenne61.modulus_val]
  push_cast at hcast
  simpa using hcast

/-- C6: for reduced inputs, `multiply` returns exactly the product modulo p; the
folded high word and the masked low word are each below 2p, and their sum is
below 3p, so reducing it subtracts p at most twice. -/
theorem c6_multiply_correct (a b : ℕ) (ha : a < Mersenne61.MODULUS)
    (hb : b < Mersenne61.MODULUS) :
    Mersenne61.multiply a b = a * b % Mersenne61.MODULUS ∧
    Mersenne61.multiplyHigh a b < 2 * Mersenne61.MODULUS ∧
    Mersenne61.multiplyLow a b < 2 * Mersenne61.MODULUS ∧
    Mersenne61.multiplyHigh a b + Mersenne61.multiplyLow a b
      < 3 * Mersenne61.MODULUS := by
  have hM := Mersenne61.modulus_val
  have hu : a * b < 2 ^ 61 * 2 ^ 61 := by
    apply Nat.mul_lt_mul_of_lt_of_lt <;> omega
  have hhigh : Mersenne61.multiplyHigh a b = a * b / 2 ^ 61 :=
    Mersenne61.multiplyHigh_eq ha hb
  have hlow : Mersenne61.multiplyLow a b = a * b % 2 ^ 61 :=
    Mersenne61.multiplyLow_eq a b
  have hdivlt : a * b / 2 ^ 61 < 2 ^ 61 := Nat.div_lt_of_lt_mul hu
  have hmodlt : a * b % 2 ^ 61 < 2 ^ 61 := Nat.mod_lt _ (by norm_num)
  refine ⟨Mersenne61.multiply_eq_mod ha hb, ?_, ?_, ?_⟩
  · rw [hhigh]
    omega
  · rw [hlow]
    omega
  · rw [hhigh, hlow]
    omega

/-- Witness for C6 at a = 2, b = 6. -/
theorem c6_multiply_correct_witness :
    (2 < Mersenne61.MODULUS ∧ 6 < Mersenne61.MODULUS) ∧
    (Mersenne61.multiply 2 6 = 2 * 6 % Mersenne61.MODULUS ∧
      Mersenne61.multiplyHigh 2 6 < 2 * Mersenne61.MODULUS ∧
      Mersenne61.multiplyLow 2 6 < 2 * Mersenne61.MODULUS ∧
      Mersenne61.multiplyHigh 2 6 + Mersenne61.multiplyLow 2 6
        < 3 * Mersenne61.MODULUS) := by
  have h2 : (2 : ℕ) < Mersenne61.MODULUS := by
    rw [Mersenne61.modulus_val]
    omega
  have h6 : (6 : ℕ) < Mersenne61.MODULUS := by
    rw [Mersenne61.modulus_val]
    omega
  exact ⟨⟨h2, h6⟩, c6_multiply_correct 2 6 h2 h6⟩

/-- C7: `inverse` fails exactly on 0; on any other reduced element it returns a
reduced value whose product with the input is ONE, via the extended Euclidean
loop on the modulus and the element. -/
theorem c7_inverse_correct (a : ℕ) (ha : a < Mersenne61.MODULUS) :
    (Mersenne61.inverse a = none ↔ a = 0) ∧
    (a ≠ 0 → ∃ b, Mersenne61.inverse a = some b ∧ b < Mersenne61.MODULUS ∧
      Mersenne61.multiply a b = 1) := by
  constructor
  · constructor
    · intro hnone
      by_contra hne
      obtain ⟨b, hb, _, _, _⟩ := Mersenne61.inverse_spec hne ha
      rw [hb] at hnone
      exact absurd hnone (by simp)
    · intro h0
      rw [h0]
      exact Mersenne61.inverse_zero
  · intro hne
    obtain ⟨b, hb, hblt, _, hmul⟩ := Mersenne61.inverse_spec hne ha
    exact ⟨b, hb, hblt, hmul⟩

/-- Witness for C7 at a = 2. -/
theorem c7_inverse_correct_witness :
    (2 < Mersenne61.MODULUS ∧ (2 : ℕ) ≠ 0) ∧
    ((Mersenne61.inverse 2 = none ↔ (2 : ℕ) = 0) ∧
      ((2 : ℕ) ≠ 0 → ∃ b, Mersenne61.inverse 2 = some b ∧
        b < Mersenne61.MODULUS ∧ Mersenne61.multiply 2 b = 1)) := by
  have h2 : (2 : ℕ) < Mersenne61.MODULUS := by
    rw [Mersenne61.modulus_val]
    omega
  exact ⟨⟨h2, by omega⟩, c7_inverse_correct 2 h2⟩

/-- C5 amended: construction from a u64 and each arithmetic operation return a
value reduced into [0, p), but an element entering through deserialization of a
received share is the raw decoded u64 and is NOT reduced. -/
theorem c5_reduction_invariant :
    (∀ v : ℕ, Mersenne61.fromU64 v < Mersenne61.MODULUS) ∧
    (∀ a b : ℕ, Mersenne61.add a b < Mersenne61.MODULUS) ∧
    (∀ a b : ℕ, Mersenne61.subtract a b < Mersenne61.MODULUS) ∧
    (∀ a : ℕ, Mersenne61.negate a < Mersenne61.MODULUS) ∧
    (∀ a b : ℕ, Mersenne61.multiply a b < Mersenne61.MODULUS) ∧
    (∀ a b : ℕ, Mersenne61.inverse a = some b → b < Mersenne61.MODULUS) ∧
    (∀ v : ℕ, Mersenne61.random v < Mersenne61.MODULUS) :=
  ⟨Mersenne61.fromU64_lt, Mersenne61.add_lt, Mersenne61.subtract_lt,
    Mersenne61.negate_lt, Mersenne61.multiply_lt,
    fun _ _ h => inverse_some_lt h, Mersenne61.random_lt⟩

/-- Witness for the amended C5 (the inverse conjunct carries a hypothesis,
discharged at the concrete input 2 with the computed inverse 2^60). -/
theorem c5_reduction_invariant_witness :
    Mersenne61.fromU64 3 < Mersenne61.MODULUS ∧
    Mersenne61.add 3 4 < Mersenne61.MODULUS ∧
    Mersenne61.subtract 3 4 < Mersenne61.MODULUS ∧
    Mersenne61.negate 3 < Mersenne61.MODULUS ∧
    Mersenne61.multiply 3 4 < Mersenne61.MODULUS ∧
    (Mersenne61.inverse 2 = some 1152921504606846976 ∧
      1152921504606846976 < Mersenne61.MODULUS) ∧
    Mersenne61.random 3 < Mersenne61.MODULUS :=
  ⟨c5_reduction_invariant.1 3,
    c5_reduction_invariant.2.1 3 4,
    c5_reduction_invariant.2.2.1 3 4,
    c5_reduction_invariant.2.2.2.1 3,
    c5_reduction_invariant.2.2.2.2.1 3 4,
    ⟨inverse_two_eq, c5_reduction_invariant.2.2.2.2.2.1 2 _ inverse_two_eq⟩,
    c5_reduction_invariant.2.2.2.2.2.2 3⟩

/-- Counterexample to C5 as stated: the 16-byte bincode packet carrying degree 1
and the raw u64 value p = 2^61 - 1 deserializes into a share whose stored field
value is p itself, violating the claimed invariant value < p. -/
theorem c5_counterexample :
    Mersenne61.deserializeShamirShare
      [1, 0, 0, 0, 0, 0, 0, 0, 0xFF, 0xFF, 0xFF, 0xFF, 0xFF, 0xFF, 0xFF, 0x1F]
      = some (1, Mersenne61.MODULUS) ∧
    ¬ (Mersenne61.MODULUS < Mersenne61.MODULUS) :=
  ⟨by rfl, lt_irrefl _⟩

/-- C4 evaluated at the failing input: `subtract_const` on the share (value 5,
degree 1) with the constant 2 returns value 7 = 5 + 2 (the code subtracts the
NEGATION of the constant), while component-wise subtraction gives 3. -/
theorem c4_subtract_const_adds :
    (ShamirShare.new 5 1).subtract_const 2 = ShamirShare.new 7 1 ∧
      Mersenne61.subtract 5 2 = 3 ∧ (7 : ℕ) ≠ (3 : ℕ) := by
  have hM := Mersenne61.modulus_val
  refine ⟨?_, ?_, by omega⟩
  · show ShamirShare.mk 1 (Mersenne61.subtract 5 (Mersenne61.negate 2)) =
      ShamirShare.mk 1 7
    have hneg : Mersenne61.negate 2 = Mersenne61.MODULUS - 2 := by
      rw [Mersenne61.negate, if_pos (by omega), Mersenne61.fromU64_eq_mod,
        Nat.mod_eq_of_lt (by omega)]
    rw [hneg, Mersenne61.subtract, if_pos (by omega), Mersenne61.fromU64_eq_mod,
      show 5 + Mersenne61.MODULUS - (Mersenne61.MODULUS - 2) = 7 from by omega,
      Nat.mod_eq_of_lt (by omega)]
  · rw [Mersenne61.subtract, if_neg (by omega), Mersenne61.fromU64_eq_mod,
      Nat.mod_eq_of_lt (by omega)]

/-! Claim theorems for the transport layer. -/

theorem tcp_send_some (s : TcpStreamModel) (p : Packet) :
    TcpChannel.send { stream := some s } p =
      ({ stream := some { pending := s.pending ++ p } }, Except.ok p.length) := rfl

theorem tcp_recv_some (s : TcpStreamModel) (h : ¬ s.pending.isEmpty = true) :
    TcpChannel.recv { stream := some s } =
      ({ stream := some { pending := s.pending.drop TcpChannel.MAX_BUFFER_SIZE } },
        Except.ok (s.pending.take TcpChannel.MAX_BUFFER_SIZE)) := by
  show (if s.pending.isEmpty then _ else _) = _
  rw [if_neg h]

/-- Counterexample to C3 as stated: the code writes no length prefix (the bytes
on the wire after sending [42] are exactly [42], not an 8-byte length followed
by the payload) and the receiver performs one read of at most 1024 bytes, so a
1025-byte payload comes back truncated to its first 1024 bytes. -/
theorem c3_framing_counterexample :
    ((TcpChannel.send { stream := some { pending := [] } }
        (List.replicate 1025 0x5A)).1.recv).2
      = Except.ok (List.replicate 1024 (0x5A : ℕ)) ∧
    List.replicate 1024 (0x5A : ℕ) ≠ List.replicate 1025 (0x5A : ℕ) ∧
    (TcpChannel.send { stream := some { pending := [] } } [42]).1.stream
      = some { pending := [42] } := by
  have hne : ¬ (List.replicate 1025 (0x5A : ℕ)).isEmpty = true := by
    rw [List.isEmpty_iff]
    intro h
    have hl := congrArg List.length h
    rw [List.length_replicate] at hl
    simp at hl
  refine ⟨?_, ?_, ?_⟩
  · rw [tcp_send_some]
    simp only [List.nil_append]
    rw [tcp_recv_some { pending := List.replicate 1025 (0x5A : ℕ) } hne,
      List.take_replicate]
    have hmin : min TcpChannel.MAX_BUFFER_SIZE 1025 = 1024 := by
      rw [TcpChannel.MAX_BUFFER_SIZE]
      omega
    rw [hmin]
  · intro h
    have hl := congrArg List.length h
    rw [List.length_replicate, List.length_replicate] at hl
    omega
  · rfl

/-- C3 amended: `send` writes the payload bytes once with no length prefix and
returns the byte count of that single write; `recv` performs a single read into
a 1024-byte buffer (retrying only empty reads until a timeout), so a non-empty
payload of at most 1024 bytes delivered in one read round-trips byte-for-byte,
while nothing guarantees round-tripping beyond one buffer. -/
theorem c3_send_recv_roundtrip (p : Packet) (hne : p ≠ []) (hlen : p.length ≤ 1024) :
    (TcpChannel.send { stream := some { pending := [] } } p).2
      = Except.ok p.length ∧
    (TcpChannel.send { stream := some { pending := [] } } p).1.stream
      = some { pending := p } ∧
    ((TcpChannel.send { stream := some { pending := [] } } p).1.recv).2
      = Except.ok p := by
  have hne2 : ¬ (([] : List ℕ) ++ p).isEmpty = true := by
    rw [List.isEmpty_iff, List.nil_append]
    exact hne
  refine ⟨?_, ?_, ?_⟩
  · rw [tcp_send_some]
  · rw [tcp_send_some]
    simp only [List.nil_append]
  · rw [tcp_send_some, tcp_recv_some _ hne2]
    simp only [List.nil_append]
    show Except.ok (p.take TcpChannel.MAX_BUFFER_SIZE) = _
    rw [TcpChannel.MAX_BUFFER_SIZE, List.take_of_length_le hlen]

/-- Witness for the amended C3 at the one-byte payload [90]. -/
theorem c3_send_recv_roundtrip_witness :
    (([90] : Packet) ≠ [] ∧ ([90] : Packet).length ≤ 1024) ∧
    ((TcpChannel.send { stream := some { pending := [] } } [90]).2
        = Except.ok ([90] : Packet).length ∧
      (TcpChannel.send { stream := some { pending := [] } } [90]).1.stream
        = some { pending := [90] } ∧
      ((TcpChannel.send { stream := some { pending := [] } } [90]).1.recv).2
        = Except.ok ([90] : Packet)) :=
  ⟨⟨by simp, by simp⟩, c3_send_recv_roundtrip [90] (by simp) (by simp)⟩

/-- Counterexample to C8 as stated: on the loopback variant, after a successful
close a subsequent send still succeeds (close only clears the FIFO). -/
theorem c8_counterexample :
    (LoopBackChannel.close { buffer := [[1]] }).2 = Except.ok () ∧
    ((LoopBackChannel.close { buffer := [[1]] }).1.send [7]).2 = Except.ok 1 :=
  ⟨rfl, rfl⟩

/-- C8 amended: close is terminal for the TCP variant (every subsequent send and
recv fails with ChannelNotAlive), while for the loopback variant close merely
clears the queue: a recv straight after close fails with EmptyBufferError, but
sends still succeed. -/
theorem c8_close_semantics :
    (∀ (c : TcpChannel) (p : Packet),
      ((c.close.1).send p).2 = Except.error ChannelError.ChannelNotAlive ∧
      ((c.close.1).recv).2 = Except.error ChannelError.ChannelNotAlive) ∧
    (∀ (c : LoopBackChannel) (p : Packet),
      ((c.close.1).recv).2 = Except.error ChannelError.EmptyBufferError ∧
      ((c.close.1).send p).2 = Except.ok p.length) := by
  constructor
  · intro c p
    exact ⟨rfl, rfl⟩
  · intro c p
    exact ⟨rfl, rfl⟩

/-! The recombination fold of the multiplication protocol. -/

theorem foldl_share_fold_spec (pairs : List (ℕ × ShamirShare)) :
    ∀ init : ShamirShare, init.value < Mersenne61.MODULUS →
    (∀ pr ∈ pairs, pr.1 < Mersenne61.MODULUS ∧ pr.2.value < Mersenne61.MODULUS) →
    (pairs.foldl (fun acc p => acc.add (p.2.multiply_const p.1)) init).value
        < Mersenne61.MODULUS ∧
    (((pairs.foldl (fun acc p => acc.add (p.2.multiply_const p.1)) init).value : ℕ) : F)
      = ((init.value : ℕ) : F) +
        (pairs.map (fun pr => ((pr.2.value : ℕ) : F) * ((pr.1 : ℕ) : F))).sum ∧
    (pairs.foldl (fun acc p => acc.add (p.2.multiply_const p.1)) init).degree
      = pairs.foldl (fun d p => max d p.2.degree) init.degree := by
  induction pairs with
  | nil =>
    intro init hinit hmem
    exact ⟨hinit, by simp, rfl⟩
  | cons p t ih =>
    intro init hinit hmem
    have hp := hmem p (List.mem_cons_self p t)
    have ht := fun pr hpr => hmem pr (List.mem_cons_of_mem _ hpr)
    have hstep := ih (init.add (p.2.multiply_const p.1))
      (Mersenne61.add_lt _ _) ht
    refine ⟨hstep.1, ?_, ?_⟩
    · have hv : ((init.add (p.2.multiply_const p.1)).value : F) =
          ((init.value : ℕ) : F) + ((p.2.value : ℕ) : F) * ((p.1 : ℕ) : F) := by
        show ((Mersenne61.add init.value (Mersenne61.multiply p.2.value p.1) : ℕ) : F) = _
        rw [Mersenne61.add_cast, Mersenne61.multiply_cast hp.2 hp.1]
      rw [List.foldl_cons, hstep.2.1, hv, List.map_cons, List.sum_cons]
      ring
    · rw [List.foldl_cons, hstep.2.2]
      rfl

theorem sum_zip_share (A : List ℕ) :
    ∀ (Hs : List ShamirShare) (k : ℕ), A.length = k → Hs.length = k →
    ((A.zip Hs).map (fun pr => ((pr.2.value : ℕ) : F) * ((pr.1 : ℕ) : F))).sum
      = ∑ i in Finset.range k,
          (((Hs.getD i default).value : ℕ) : F) * ((A.getD i 0 : ℕ) : F) := by
  induction A with
  | nil =>
    intro Hs k hA hB
    subst hA
    simp
  | cons a A ih =>
    intro Hs k hA hB
    cases Hs with
    | nil =>
      rw [List.length_cons] at hA
      rw [List.length_nil] at hB
      omega
    | cons h Hs =>
      rw [List.length_cons] at hA hB
      cases k with
      | zero => omega
      | succ k2 =>
        rw [List.zip_cons_cons, List.map_cons, List.sum_cons,
          ih Hs k2 (by omega) (by omega), Finset.sum_range_succ']
        simp only [List.getD_cons_succ, List.getD_cons_zero]
        ring

theorem foldl_max_const (t : ℕ) (pairs : List (ℕ × ShamirShare)) :
    (∀ pr ∈ pairs, pr.2.degree = t) →
    pairs.foldl (fun d p => max d p.2.degree) t = t := by
  induction pairs with
  | nil => intro h; rfl
  | cons p ps ih =>
    intro h
    rw [List.foldl_cons, h p (List.mem_cons_self p ps), max_self]
    exact ih (fun pr hpr => h pr (List.mem_cons_of_mem _ hpr))

theorem recombine_spec (Hs : List ShamirShare) (B : List ℕ) (k t : ℕ) (hk : 0 < k)
    (hHs : Hs.length = k) (hB : B.length = k)
    (hHlt : ∀ sh ∈ Hs, sh.value < Mersenne61.MODULUS)
    (hBlt : ∀ y ∈ B, y < Mersenne61.MODULUS)
    (hdeg : ∀ sh ∈ Hs, sh.degree = t) :
    (recombine Hs B).degree = t ∧
    (recombine Hs B).value < Mersenne61.MODULUS ∧
    (((recombine Hs B).value : ℕ) : F) =
      ∑ i in Finset.range k,
        (((Hs.getD i default).value : ℕ) : F) * ((B.getD i 0 : ℕ) : F) := by
  cases Hs with
  | nil =>
    rw [List.length_nil] at hHs
    omega
  | cons h Hs2 =>
    cases B with
    | nil =>
      rw [List.length_nil] at hB
      omega
    | cons b B2 =>
      cases k with
      | zero => omega
      | succ k2 =>
        rw [List.length_cons] at hHs hB
        have hh := hHlt h (List.mem_cons_self h Hs2)
        have hb0 := hBlt b (List.mem_cons_self b B2)
        have hrec : recombine (h :: Hs2) (b :: B2) =
            (B2.zip Hs2).foldl (fun acc p => acc.add (p.2.multiply_const p.1))
              (h.multiply_const b) := by
          rw [recombine]
          simp [List.zip_cons_cons]
        have hinitv : (h.multiply_const b).value < Mersenne61.MODULUS :=
          Mersenne61.multiply_lt _ _
        have hfold := foldl_share_fold_spec (B2.zip Hs2) (h.multiply_const b) hinitv
          (by
            intro pr hpr
            have hm := List.of_mem_zip hpr
            exact ⟨hBlt _ (List.mem_cons_of_mem _ hm.1),
              hHlt _ (List.mem_cons_of_mem _ hm.2)⟩)
        rw [hrec]
        refine ⟨?_, hfold.1, ?_⟩
        · rw [hfold.2.2]
          have hid : (h.multiply_const b).degree = t :=
            hdeg h (List.mem_cons_self h Hs2)
          rw [hid]
          apply foldl_max_const
          intro pr hpr
          exact hdeg _ (List.mem_cons_of_mem _ (List.of_mem_zip hpr).2)
        · rw [hfold.2.1,
            sum_zip_share B2 Hs2 k2 (by omega) (by omega), Finset.sum_range_succ']
          have hiv : (((h.multiply_const b).value : ℕ) : F) =
              ((h.value : ℕ) : F) * ((b : ℕ) : F) := by
            show ((Mersenne61.multiply h.value b : ℕ) : F) = _
            rw [Mersenne61.multiply_cast hh hb0]
          rw [hiv]
          simp only [List.getD_cons_succ, List.getD_cons_zero]
          ring

/-! One invocation of the multiplication protocol across all parties. -/

theorem getD_mem_of_lt {α : Type} [Inhabited α] (l : List α) {i : ℕ}
    (hi : i < l.length) (d : α) : l.getD i d ∈ l := by
  rw [List.getD_eq_getElem _ _ hi]
  exact List.getElem_mem _

theorem degree_mul_lt_of_le {P Q : Polynomial F} {t N : ℕ}
    (hP : P.degree < ((t + 1 : ℕ) : WithBot ℕ))
    (hQ : Q.degree < ((t + 1 : ℕ) : WithBot ℕ))
    (h2t : 2 * t + 1 ≤ N) : (P * Q).degree < ((N : ℕ) : WithBot ℕ) := by
  apply lt_of_le_of_lt (Polynomial.degree_mul_le P Q)
  rw [Nat.cast_withBot] at hP hQ ⊢
  rcases hp : P.degree with _ | p
  · rw [WithBot.none_eq_bot, WithBot.bot_add]
    exact WithBot.bot_lt_coe N
  · rcases hq : Q.degree with _ | q
    · rw [WithBot.none_eq_bot, WithBot.add_bot]
      exact WithBot.bot_lt_coe N
    · rw [hp] at hP
      rw [hq] at hQ
      rw [WithBot.some_eq_coe] at hP hQ
      have hp2 : p < t + 1 := WithBot.coe_lt_coe.mp hP
      have hq2 : q < t + 1 := WithBot.coe_lt_coe.mp hQ
      rw [WithBot.some_eq_coe, WithBot.some_eq_coe, ← WithBot.coe_add]
      exact WithBot.coe_lt_coe.mpr (by omega)

theorem degree_C_mul_le_right {c : F} {p : Polynomial F} :
    (Polynomial.C c * p).degree ≤ p.degree := by
  calc (Polynomial.C c * p).degree ≤ (Polynomial.C c).degree + p.degree :=
      Polynomial.degree_mul_le _ _
  _ ≤ 0 + p.degree := add_le_add_right Polynomial.degree_C_le _
  _ = p.degree := zero_add _

theorem run_multiply_protocol_spec (N t : ℕ) (hN0 : 0 < N)
    (hNM : N ≤ Mersenne61.MODULUS) (h2t : 2 * t + 1 ≤ N)
    (a b : List ShamirShare) (ha : a.length = N) (hb : b.length = N)
    (halt : ∀ sh ∈ a, sh.value < Mersenne61.MODULUS)
    (hblt : ∀ sh ∈ b, sh.value < Mersenne61.MODULUS)
    (rands : List (List ℕ)) (hr : ∀ i, i < N → (rands.getD i []).length = t + 1)
    (P Q : Polynomial F)
    (hP : P.degree < ((t + 1 : ℕ) : WithBot ℕ))
    (hQ : Q.degree < ((t + 1 : ℕ) : WithBot ℕ))
    (haval : ∀ j, j < N → (((a.getD j default).value : ℕ) : F) = P.eval (nodeF j))
    (hbval : ∀ j, j < N → (((b.getD j default).value : ℕ) : F) = Q.eval (nodeF j)) :
    ∃ outs H, run_multiply_protocol a b N t rands = some outs ∧
      outs.length = N ∧
      (∀ sh ∈ outs, sh.degree = t ∧ sh.value < Mersenne61.MODULUS) ∧
      Polynomial.degree H < ((t + 1 : ℕ) : WithBot ℕ) ∧
      (∀ j, j < N → (((outs.getD j default).value : ℕ) : F) = H.eval (nodeF j)) ∧
      H.eval 0 = P.eval 0 * Q.eval 0 := by
  classical
  have hvlt : ∀ i, ((a.getD i default).multiply (b.getD i default)).value
      < Mersenne61.MODULUS := fun i => Mersenne61.multiply_lt _ _
  have hvcast : ∀ i, i < N →
      ((((a.getD i default).multiply (b.getD i default)).value : ℕ) : F)
        = (P * Q).eval (nodeF i) := by
    intro i hi
    show ((Mersenne61.multiply (a.getD i default).value (b.getD i default).value : ℕ) : F) = _
    rw [Mersenne61.multiply_cast
        (halt _ (getD_mem_of_lt a (by omega) default))
        (hblt _ (getD_mem_of_lt b (by omega) default)),
      haval i hi, hbval i hi, Polynomial.eval_mul]
  set Qp : ℕ → Polynomial F := fun i =>
    listToPoly (((a.getD i default).multiply (b.getD i default)).value
      :: (rands.getD i []).tail) with hQpdef
  have hQpdeg : ∀ i, i < N → (Qp i).degree < ((t + 1 : ℕ) : WithBot ℕ) := by
    intro i hi
    have hlen : (((a.getD i default).multiply (b.getD i default)).value
        :: (rands.getD i []).tail).length = t + 1 := by
      rw [List.length_cons, List.length_tail, hr i hi]
      omega
    rw [hQpdef]
    have := listToPoly_degree_lt (((a.getD i default).multiply (b.getD i default)).value
      :: (rands.getD i []).tail)
    rw [hlen] at this
    exact this
  have hQpeval0 : ∀ i, (Qp i).eval 0 =
      ((((a.getD i default).multiply (b.getD i default)).value : ℕ) : F) := by
    intro i
    rw [hQpdef]
    exact listToPoly_eval_zero _ _
  have hdista : ∀ m1 m2, m1 < (nodesList N).length → m2 < (nodesList N).length →
      m1 ≠ m2 → (nodesList N).getD m1 0 ≠ (nodesList N).getD m2 0 := by
    intro m1 m2 hm1 hm2 hne
    rw [nodesList_length] at hm1 hm2
    rw [nodesList_getD hm1, nodesList_getD hm2]
    exact fun hc => hne (node_inj hNM hm1 hm2 hc)
  obtain ⟨B, hB, hBlen, hBlt, hBval⟩ :=
    compute_lagrange_basis_spec (nodesList N) 0 (nodesList_mem_lt N) hdista
  rw [nodesList_length] at hBlen
  set lam : ℕ → F := fun i => ∏ m in Finset.range N,
    (if m = i then 1 else (0 - nodeF m) * (nodeF i - nodeF m)⁻¹) with hlamdef
  have hBcast : ∀ i, i < N → ((B.getD i 0 : ℕ) : F) = lam i := by
    intro i hi
    rw [hBval i (by rw [nodesList_length]; exact hi), nodesList_length, hlamdef]
    apply Finset.prod_congr rfl
    intro m hm
    have hmk : m < N := Finset.mem_range.mp hm
    rw [nodesList_getD hmk, nodesList_getD hi, nodeF_cast, nodeF_cast, Nat.cast_zero]
  have hrun : run_multiply_protocol a b N t rands = some
      ((List.range N).map (fun j => recombine ((List.range N).map (fun i =>
        (compute_shamir_share (((a.getD i default).multiply (b.getD i default)).value)
          N t (rands.getD i [])).getD j default)) B)) := by
    simp only [run_multiply_protocol]
    rw [hB]
    simp only [Option.map_some', List.map_map]
    rfl
  have hHsj_getD : ∀ j i, j < N → i < N →
      (((List.range N).map (fun i2 =>
        (compute_shamir_share (((a.getD i2 default).multiply (b.getD i2 default)).value)
          N t (rands.getD i2 [])).getD j default)).getD i default) =
      ShamirShare.new (polyEval
        ((((a.getD i default).multiply (b.getD i default)).value)
          :: (rands.getD i []).tail) (Mersenne61.fromU64 (j + 1))) t := by
    intro j i hj hi
    rw [getD_map_range _ _ hi]
    exact compute_shamir_share_getD _ N t _ hj
  have hHsj_mem : ∀ j, j < N → ∀ sh ∈ ((List.range N).map (fun i2 =>
      (compute_shamir_share (((a.getD i2 default).multiply (b.getD i2 default)).value)
        N t (rands.getD i2 [])).getD j default)),
      sh.degree = t ∧ sh.value < Mersenne61.MODULUS := by
    intro j hj sh hsh
    obtain ⟨i, hi, rfl⟩ := List.mem_map.mp hsh
    rw [List.mem_range] at hi
    rw [compute_shamir_share_getD _ N t _ hj]
    exact ⟨rfl, polyEval_lt _ _⟩
  have hrec : ∀ j, j < N →
      (recombine ((List.range N).map (fun i2 =>
        (compute_shamir_share (((a.getD i2 default).multiply (b.getD i2 default)).value)
          N t (rands.getD i2 [])).getD j default)) B).degree = t ∧
      (recombine ((List.range N).map (fun i2 =>
        (compute_shamir_share (((a.getD i2 default).multiply (b.getD i2 default)).value)
          N t (rands.getD i2 [])).getD j default)) B).value < Mersenne61.MODULUS ∧
      (((recombine ((List.range N).map (fun i2 =>
        (compute_shamir_share (((a.getD i2 default).multiply (b.getD i2 default)).value)
          N t (rands.getD i2 [])).getD j default)) B).value : ℕ) : F) =
        ∑ i in Finset.range N, (Qp i).eval (nodeF j) * lam i := by
    intro j hj
    obtain ⟨hd, hv, hvalsum⟩ := recombine_spec _ B N t hN0 (by simp) hBlen
      (fun sh hsh => (hHsj_mem j hj sh hsh).2) hBlt
      (fun sh hsh => (hHsj_mem j hj sh hsh).1)
    refine ⟨hd, hv, ?_⟩
    rw [hvalsum]
    apply Finset.sum_congr rfl
    intro i hi
    have hik : i < N := Finset.mem_range.mp hi
    rw [hHsj_getD j i hj hik]
    have hc : ((ShamirShare.new (polyEval
        ((((a.getD i default).multiply (b.getD i default)).value)
          :: (rands.getD i []).tail) (Mersenne61.fromU64 (j + 1))) t).value : F)
        = (Qp i).eval (nodeF j) := by
      show ((polyEval _ (Mersenne61.fromU64 (j + 1)) : ℕ) : F) = _
      rw [polyEval_cast _ (Mersenne61.fromU64_lt _), nodeF_cast, hQpdef]
    rw [hc, hBcast i hik]
  refine ⟨_, ∑ i in Finset.range N, Polynomial.C (lam i) * Qp i, hrun, by simp, ?_, ?_, ?_, ?_⟩
  · intro sh hsh
    obtain ⟨j, hj, rfl⟩ := List.mem_map.mp hsh
    rw [List.mem_range] at hj
    exact ⟨(hrec j hj).1, (hrec j hj).2.1⟩
  · apply lt_of_le_of_lt (Polynomial.degree_sum_le _ _)
    rw [Finset.sup_lt_iff (WithBot.bot_lt_coe _)]
    intro i hi
    exact lt_of_le_of_lt degree_C_mul_le_right
      (hQpdeg i (Finset.mem_range.mp hi))
  · intro j hj
    rw [getD_map_range _ _ hj]
    rw [(hrec j hj).2.2, Polynomial.eval_finset_sum]
    apply Finset.sum_congr rfl
    intro i hi
    rw [Polynomial.eval_mul, Polynomial.eval_C]
    ring
  · rw [Polynomial.eval_finset_sum]
    have hsum : ∑ i in Finset.range N, (Polynomial.C (lam i) * Qp i).eval 0
        = ∑ i in Finset.range N, (P * Q).eval (nodeF i) * lam i := by
      apply Finset.sum_congr rfl
      intro i hi
      rw [Polynomial.eval_mul, Polynomial.eval_C, hQpeval0 i,
        hvcast i (Finset.mem_range.mp hi)]
      ring
    rw [hsum, lagrange_eval_zero N hNM (P * Q) (degree_mul_lt_of_le hP hQ h2t),
      Polynomial.eval_mul]

/-- C1: with 2t+1 <= N (and the party count below the field size so the nodes
1..N stay distinct), if party i holds the degree-t shares f_a(i+1) and f_b(i+1)
of A = f_a(0) and B = f_b(0), and the network delivers every sub-share H_i_j,
then `run_multiply_protocol` produces on each party an output share of degree t
and reconstructing the N output shares yields A * B. -/
theorem c1_multiply_protocol_correct (N t : ℕ) (h2t : 2 * t + 1 ≤ N)
    (hNM : N ≤ Mersenne61.MODULUS)
    (fa fb : List ℕ) (hfa : fa.length = t + 1) (hfb : fb.length = t + 1)
    (rands : List (List ℕ)) (hr : ∀ i, i < N → (rands.getD i []).length = t + 1) :
    ∃ outs, run_multiply_protocol
        ((List.range N).map (fun i =>
          ShamirShare.new (polyEval fa (Mersenne61.fromU64 (i + 1))) t))
        ((List.range N).map (fun i =>
          ShamirShare.new (polyEval fb (Mersenne61.fromU64 (i + 1))) t))
        N t rands = some outs ∧
      outs.length = N ∧
      (∀ sh ∈ outs, sh.degree = t) ∧
      reconstruct_secret outs =
        some (Mersenne61.multiply (polyEval fa 0) (polyEval fb 0)) := by
  have hN0 : 0 < N := by omega
  have hdegfa : (listToPoly fa).degree < ((t + 1 : ℕ) : WithBot ℕ) := by
    rw [← hfa]
    exact listToPoly_degree_lt fa
  have hdegfb : (listToPoly fb).degree < ((t + 1 : ℕ) : WithBot ℕ) := by
    rw [← hfb]
    exact listToPoly_degree_lt fb
  have hshape : ∀ (cs : List ℕ) (j : ℕ), j < N →
      ((((List.range N).map (fun i =>
        ShamirShare.new (polyEval cs (Mersenne61.fromU64 (i + 1))) t)).getD j
          default).value : F) = (listToPoly cs).eval (nodeF j) := by
    intro cs j hj
    rw [getD_map_range _ _ hj]
    show ((polyEval cs (Mersenne61.fromU64 (j + 1)) : ℕ) : F) = _
    rw [polyEval_cast _ (Mersenne61.fromU64_lt _), nodeF_cast]
  have hmemlt : ∀ (cs : List ℕ) sh, sh ∈ ((List.range N).map (fun i =>
      ShamirShare.new (polyEval cs (Mersenne61.fromU64 (i + 1))) t)) →
      sh.value < Mersenne61.MODULUS := by
    intro cs sh hsh
    obtain ⟨i, _, rfl⟩ := List.mem_map.mp hsh
    exact polyEval_lt _ _
  obtain ⟨outs, H, hrun, hlen, hmem, hHdeg, hHval, hH0⟩ :=
    run_multiply_protocol_spec N t hN0 hNM h2t _ _ (by simp) (by simp)
      (hmemlt fa) (hmemlt fb) rands hr (listToPoly fa) (listToPoly fb)
      hdegfa hdegfb (hshape fa) (hshape fb)
  obtain ⟨w, hw, hwlt, hwcast⟩ := reconstruct_secret_spec outs N hlen hNM
    (fun sh hsh => (hmem sh hsh).2) H
    (lt_of_lt_of_le hHdeg (by exact_mod_cast (by omega : t + 1 ≤ N))) hHval
  refine ⟨outs, hrun, hlen, fun sh hsh => (hmem sh hsh).1, ?_⟩
  rw [hw]
  congr 1
  apply Mersenne61.cast_inj_of_lt hwlt (Mersenne61.multiply_lt _ _)
  rw [hwcast, hH0, Mersenne61.multiply_cast (polyEval_lt fa 0) (polyEval_lt fb 0)]
  have hfa0 : ((polyEval fa 0 : ℕ) : F) = (listToPoly fa).eval 0 := by
    rw [polyEval_cast fa Mersenne61.modulus_pos]
    norm_num
  have hfb0 : ((polyEval fb 0 : ℕ) : F) = (listToPoly fb).eval 0 := by
    rw [polyEval_cast fb Mersenne61.modulus_pos]
    norm_num
  rw [hfa0, hfb0]

/-- Witness for C1 at N = 3, t = 1, sharing polynomials [1, 0] for both inputs
and all-zero re-sharing randomness. -/
theorem c1_multiply_protocol_correct_witness :
    (2 * 1 + 1 ≤ 3 ∧ 3 ≤ Mersenne61.MODULUS ∧
      ([1, 0] : List ℕ).length = 1 + 1 ∧
      (∀ i, i < 3 → (([[0, 0], [0, 0], [0, 0]] : List (List ℕ)).getD i []).length
        = 1 + 1)) ∧
    (∃ outs, run_multiply_protocol
        ((List.range 3).map (fun i =>
          ShamirShare.new (polyEval [1, 0] (Mersenne61.fromU64 (i + 1))) 1))
        ((List.range 3).map (fun i =>
          ShamirShare.new (polyEval [1, 0] (Mersenne61.fromU64 (i + 1))) 1))
        3 1 [[0, 0], [0, 0], [0, 0]] = some outs ∧
      outs.length = 3 ∧
      (∀ sh ∈ outs, sh.degree = 1) ∧
      reconstruct_secret outs =
        some (Mersenne61.multiply (polyEval [1, 0] 0) (polyEval [1, 0] 0))) := by
  have h3 : (3 : ℕ) ≤ Mersenne61.MODULUS := by
    rw [Mersenne61.modulus_val]
    omega
  have hrands : ∀ i, i < 3 →
      (([[0, 0], [0, 0], [0, 0]] : List (List ℕ)).getD i []).length = 1 + 1 := by
    intro i hi
    interval_cases i <;> rfl
  exact ⟨⟨by omega, h3, rfl, hrands⟩,
    c1_multiply_protocol_correct 3 1 (by omega) h3 [1, 0] [1, 0] rfl rfl
      [[0, 0], [0, 0], [0, 0]] hrands⟩

/-! The session driver's multiplication fold. -/

theorem foldl_multiply_spec (l : List ℕ) :
    ∀ init : ℕ, init < Mersenne61.MODULUS → (∀ y ∈ l, y < Mersenne61.MODULUS) →
    l.foldl Mersenne61.multiply init < Mersenne61.MODULUS ∧
    ((l.foldl Mersenne61.multiply init : ℕ) : F) =
      ((init : ℕ) : F) * (l.map (fun y => ((y : ℕ) : F))).prod := by
  induction l with
  | nil =>
    intro init hinit hmem
    exact ⟨hinit, by simp⟩
  | cons y l ih =>
    intro init hinit hmem
    have hy := hmem y (List.mem_cons_self y l)
    have hstep := ih (Mersenne61.multiply init y) (Mersenne61.multiply_lt _ _)
      (fun z hz => hmem z (List.mem_cons_of_mem _ hz))
    refine ⟨hstep.1, ?_⟩
    rw [List.foldl_cons, hstep.2, Mersenne61.multiply_cast hinit hy,
      List.map_cons, List.prod_cons]
    ring

theorem mainFoldGo_spec (N t : ℕ) (hN0 : 0 < N) (hNM : N ≤ Mersenne61.MODULUS)
    (h2t : 2 * t + 1 ≤ N) (ss : List ℕ) :
    ∀ (rps : List (List ℕ)) (rs : List (List (List ℕ)))
      (cur : List ShamirShare) (cnt : ℕ) (G : Polynomial F),
      ss.length = rps.length →
      rs.length = ss.length →
      (∀ rp ∈ rps, rp.length = t + 1) →
      (∀ rr ∈ rs, ∀ i, i < N → (rr.getD i []).length = t + 1) →
      cur.length = N →
      (∀ sh ∈ cur, sh.value < Mersenne61.MODULUS) →
      G.degree < ((t + 1 : ℕ) : WithBot ℕ) →
      (∀ j, j < N → (((cur.getD j default).value : ℕ) : F) = G.eval (nodeF j)) →
      ∃ final G2,
        mainFoldGo N t cur cnt
          ((ss.zip rps).map (fun pr => compute_shamir_share pr.1 N t pr.2)) rs
          = some (final, cnt + ss.length) ∧
        final.length = N ∧
        (∀ sh ∈ final, sh.value < Mersenne61.MODULUS) ∧
        Polynomial.degree G2 < ((t + 1 : ℕ) : WithBot ℕ) ∧
        (∀ j, j < N → (((final.getD j default).value : ℕ) : F) = G2.eval (nodeF j)) ∧
        G2.eval 0 = G.eval 0 * (ss.map (fun y => ((y : ℕ) : F))).prod := by
  induction ss with
  | nil =>
    intro rps rs cur cnt G h1 h2 h3 h4 h5 h6 h7 h8
    refine ⟨cur, G, ?_, h5, h6, h7, h8, by simp⟩
    simp [mainFoldGo]
  | cons sec ss ih =>
    intro rps rs cur cnt G h1 h2 h3 h4 h5 h6 h7 h8
    cases rps with
    | nil => simp at h1
    | cons rp rps2 =>
      cases rs with
      | nil => simp at h2
      | cons rr rs2 =>
        rw [List.length_cons, List.length_cons] at h1 h2
        have hrpl : rp.length = t + 1 := h3 rp (List.mem_cons_self rp rps2)
        have hQdeg : (listToPoly (sec :: rp.tail)).degree
            < ((t + 1 : ℕ) : WithBot ℕ) := by
          have hlen : (sec :: rp.tail).length = t + 1 := by
            rw [List.length_cons, List.length_tail, hrpl]
            omega
          rw [← hlen]
          exact listToPoly_degree_lt _
        obtain ⟨outs, H, hrun, holen, homem, hHdeg, hHval, hH0⟩ :=
          run_multiply_protocol_spec N t hN0 hNM h2t cur
            (compute_shamir_share sec N t rp) h5
            (compute_shamir_share_length sec N t rp) h6
            (compute_shamir_share_value_lt sec N t rp) rr
            (h4 rr (List.mem_cons_self rr rs2)) G (listToPoly (sec :: rp.tail))
            h7 hQdeg h8
            (fun j hj => compute_shamir_share_value_cast sec N t rp hj)
        obtain ⟨final, G2, hfold, hflen, hfmem, hG2deg, hG2val, hG20⟩ :=
          ih rps2 rs2 outs (cnt + 1) H (by omega) (by omega)
            (fun rp2 hrp2 => h3 rp2 (List.mem_cons_of_mem _ hrp2))
            (fun rr2 hrr2 => h4 rr2 (List.mem_cons_of_mem _ hrr2))
            holen (fun sh hsh => (homem sh hsh).2) hHdeg hHval
        refine ⟨final, G2, ?_, hflen, hfmem, hG2deg, hG2val, ?_⟩
        · rw [List.zip_cons_cons, List.map_cons]
          show mainFoldGo N t cur cnt
            (compute_shamir_share sec N t rp ::
              (ss.zip rps2).map (fun pr => compute_shamir_share pr.1 N t pr.2))
            (rr :: rs2) = _
          rw [mainFoldGo, hrun, Option.some_bind, hfold]
          rw [List.length_cons]
          congr 2
          omega
        · rw [hG20, hH0, listToPoly_eval_zero, List.map_cons, List.prod_cons]
          ring

/-- C9: for N at least 3 (with the protocol's parameter constraints), the
session driver invokes the multiplication subprotocol exactly N-1 times -
first on shares[0] and shares[1], then folding each remaining input share in
forward index order - and the revealed value is the product of all N party
inputs; no input is skipped. -/
theorem c9_session_driver (N t : ℕ) (hN3 : 3 ≤ N) (h2t : 2 * t + 1 ≤ N)
    (hNM : N ≤ Mersenne61.MODULUS)
    (ss : List ℕ) (hsslen : ss.length = N) (hss : ∀ y ∈ ss, y < Mersenne61.MODULUS)
    (rps : List (List ℕ)) (hrpslen : rps.length = N)
    (hrps : ∀ rp ∈ rps, rp.length = t + 1)
    (rs : List (List (List ℕ))) (hrslen : rs.length = N - 1)
    (hrs : ∀ rr ∈ rs, ∀ i, i < N → (rr.getD i []).length = t + 1) :
    main_session N t
        ((ss.zip rps).map (fun pr => compute_shamir_share pr.1 N t pr.2)) rs
      = some (ss.foldl Mersenne61.multiply 1, N - 1) := by
  have hN0 : 0 < N := by omega
  have hM := Mersenne61.modulus_val
  cases ss with
  | nil =>
    rw [List.length_nil] at hsslen
    omega
  | cons s0 ss1 =>
  cases ss1 with
  | nil =>
    rw [List.length_cons, List.length_nil] at hsslen
    omega
  | cons s1 ss2 =>
  cases rps with
  | nil =>
    rw [List.length_nil] at hrpslen
    omega
  | cons rp0 rps1 =>
  cases rps1 with
  | nil =>
    rw [List.length_cons, List.length_nil] at hrpslen
    omega
  | cons rp1 rps2 =>
  cases rs with
  | nil =>
    rw [List.length_nil] at hrslen
    omega
  | cons rr0 rs2 =>
  rw [List.length_cons, List.length_cons] at hsslen hrpslen
  rw [List.length_cons] at hrslen
  have hdegP : (listToPoly (s0 :: rp0.tail)).degree < ((t + 1 : ℕ) : WithBot ℕ) := by
    have hlen : (s0 :: rp0.tail).length = t + 1 := by
      rw [List.length_cons, List.length_tail, hrps rp0 (by simp)]
      omega
    rw [← hlen]
    exact listToPoly_degree_lt _
  have hdegQ : (listToPoly (s1 :: rp1.tail)).degree < ((t + 1 : ℕ) : WithBot ℕ) := by
    have hlen : (s1 :: rp1.tail).length = t + 1 := by
      rw [List.length_cons, List.length_tail, hrps rp1 (by simp)]
      omega
    rw [← hlen]
    exact listToPoly_degree_lt _
  obtain ⟨outs, H, hrun, holen, homem, hHdeg, hHval, hH0⟩ :=
    run_multiply_protocol_spec N t hN0 hNM h2t
      (compute_shamir_share s0 N t rp0) (compute_shamir_share s1 N t rp1)
      (compute_shamir_share_length s0 N t rp0)
      (compute_shamir_share_length s1 N t rp1)
      (compute_shamir_share_value_lt s0 N t rp0)
      (compute_shamir_share_value_lt s1 N t rp1)
      rr0 (hrs rr0 (by simp))
      (listToPoly (s0 :: rp0.tail)) (listToPoly (s1 :: rp1.tail)) hdegP hdegQ
      (fun j hj => compute_shamir_share_value_cast s0 N t rp0 hj)
      (fun j hj => compute_shamir_share_value_cast s1 N t rp1 hj)
  obtain ⟨final, G2, hfold, hflen, hfmem, hG2deg, hG2val, hG20⟩ :=
    mainFoldGo_spec N t hN0 hNM h2t ss2 rps2 rs2 outs 1 H (by omega) (by omega)
      (fun rp2 hrp2 => hrps rp2 (by simp [hrp2]))
      (fun rr2 hrr2 => hrs rr2 (by simp [hrr2]))
      holen (fun sh hsh => (homem sh hsh).2) hHdeg hHval
  obtain ⟨w, hw, hwlt, hwcast⟩ := reconstruct_secret_spec final N hflen hNM hfmem
    G2 (lt_of_lt_of_le hG2deg (by exact_mod_cast (by omega : t + 1 ≤ N))) hG2val
  have hfoldm := foldl_multiply_spec (s0 :: s1 :: ss2) 1 (by omega) hss
  have hweq : w = (s0 :: s1 :: ss2).foldl Mersenne61.multiply 1 := by
    apply Mersenne61.cast_inj_of_lt hwlt hfoldm.1
    rw [hwcast, hG20, hH0, listToPoly_eval_zero, listToPoly_eval_zero, hfoldm.2,
      List.map_cons, List.map_cons, List.prod_cons, List.prod_cons]
    push_cast
    ring
  rw [List.zip_cons_cons, List.zip_cons_cons, List.map_cons, List.map_cons]
  simp only [main_session, main_driver]
  rw [hrun, Option.some_bind, hfold, Option.some_bind, hw, Option.map_some']
  rw [hweq]
  congr 2
  omega

/-- Witness for C9 at N = 3, t = 1, inputs (2, 3, 4) and all-zero randomness. -/
theorem c9_session_driver_witness :
    (3 ≤ 3 ∧ 2 * 1 + 1 ≤ 3 ∧ 3 ≤ Mersenne61.MODULUS ∧
      ([2, 3, 4] : List ℕ).length = 3 ∧
      (∀ y ∈ ([2, 3, 4] : List ℕ), y < Mersenne61.MODULUS) ∧
      (∀ rr ∈ ([[[0, 0], [0, 0], [0, 0]], [[0, 0], [0, 0], [0, 0]]] :
          List (List (List ℕ))), ∀ i, i < 3 → (rr.getD i []).length = 1 + 1)) ∧
    main_session 3 1
        ((([2, 3, 4] : List ℕ).zip ([[0, 0], [0, 0], [0, 0]] : List (List ℕ))).map
          (fun pr => compute_shamir_share pr.1 3 1 pr.2))
        [[[0, 0], [0, 0], [0, 0]], [[0, 0], [0, 0], [0, 0]]]
      = some (([2, 3, 4] : List ℕ).foldl Mersenne61.multiply 1, 3 - 1) := by
  have hM := Mersenne61.modulus_val
  have hss : ∀ y ∈ ([2, 3, 4] : List ℕ), y < Mersenne61.MODULUS := by
    intro y hy
    simp only [List.mem_cons, List.not_mem_nil, or_false] at hy
    rcases hy with rfl | rfl | rfl <;> omega
  have hrs : ∀ rr ∈ ([[[0, 0], [0, 0], [0, 0]], [[0, 0], [0, 0], [0, 0]]] :
      List (List (List ℕ))), ∀ i, i < 3 → (rr.getD i []).length = 1 + 1 := by
    intro rr hrr i hi
    simp only [List.mem_cons, List.not_mem_nil, or_false] at hrr
    rcases hrr with rfl | rfl <;> interval_cases i <;> rfl
  have hrps : ∀ rp ∈ ([[0, 0], [0, 0], [0, 0]] : List (List ℕ)),
      rp.length = 1 + 1 := by
    intro rp hrp
    simp only [List.mem_cons, List.not_mem_nil, or_false] at hrp
    rcases hrp with rfl | rfl | rfl <;> rfl
  exact ⟨⟨le_refl 3, by omega, by omega, rfl, hss, hrs⟩,
    c9_session_driver 3 1 (le_refl 3) (by omega) (by omega) [2, 3, 4] rfl hss
      [[0, 0], [0, 0], [0, 0]] rfl hrps
      [[[0, 0], [0, 0], [0, 0]], [[0, 0], [0, 0], [0, 0]]] rfl hrs⟩

end Shami
